import Mathlib

/-!
# steam-box: the markdown splice and the playtime summary

A shallow embedding of `pkg/steambox/box.go`.

* A Go `[]byte` is a `List UInt8`.  The strings handled by the splice (`title`) are
  byte sequences too; `bytes s` is the conversion `[]byte(s)` of a string literal.
* The network and file-system calls are left out: `UpdateMarkdown` below is the
  function from the bytes read from the file to the bytes handed to
  `ioutil.WriteFile`, and `none` is a run-time panic, raised before anything is
  written.
-/

namespace steambox

/-! ## Byte slices -/

/-- The conversion `[]byte(s)`: the UTF-8 bytes of `s`. -/
def bytes (s : String) : List UInt8 :=
  s.toUTF8.data.toList

/-- The library function `bytes.Index(s, sep)`: the index of the first instance of
`sep` in `s`, or `-1` if `sep` is not present in `s`. -/
def Index : List UInt8 → List UInt8 → Int
  | [], sep => if sep.isPrefixOf [] then 0 else -1
  | x :: t, sep =>
    if sep.isPrefixOf (x :: t) then 0
    else
      let r := Index t sep
      if r < 0 then -1 else r + 1

/-- The slice expression `md[:high]`.  Go checks `0 <= high <= cap(md)`, not
`high <= len(md)`: `spare` holds the bytes of the backing array that lie between
`len(md)` and `cap(md)`.  Out of range is a run-time panic. -/
def sliceTo (md spare : List UInt8) (high : Int) : Option (List UInt8) :=
  if 0 ≤ high ∧ high ≤ (md.length + spare.length : Nat) then
    some ((md ++ spare).take high.toNat)
  else none

/-- The slice expression `md[low:]`.  Go checks `0 <= low <= len(md)`; out of range
is a run-time panic. -/
def sliceFrom (md : List UInt8) (low : Int) : Option (List UInt8) :=
  if 0 ≤ low ∧ low ≤ (md.length : Nat) then some (md.drop low.toNat) else none

/-! ## UpdateMarkdown -/

/-- The local `start` of `UpdateMarkdown`. -/
def start : List UInt8 :=
  bytes "<!-- steam-box start -->"

/-- The local `end` of `UpdateMarkdown` (`end` is a keyword here). -/
def endMarker : List UInt8 :=
  bytes "<!-- steam-box end -->"

/-- The attribution line written after the fenced block. -/
def poweredBy : List UInt8 :=
  bytes "<!-- Powered by https://github.com/YouEclipse/steam-box . -->\n"

/-- The buffer `newMd` once `before` and `after` are known: the eight writes of
`UpdateMarkdown`, in order. -/
def newMd (before title content after : List UInt8) : List UInt8 :=
  before ++ (bytes "\n" ++ title ++ bytes "\n") ++ bytes "```text\n" ++ content ++ bytes "\n"
    ++ bytes "```\n" ++ poweredBy ++ after

/-- The function `UpdateMarkdown`, from the bytes `md` read from the file (`spare`: the unused
capacity of that slice) to the bytes written back.  `none`: one of the two slice
expressions panicked, and nothing is written. -/
def UpdateMarkdown (title : List UInt8) (md spare : List UInt8) (content : List UInt8) :
    Option (List UInt8) :=
  match sliceTo md spare (Index md start + (start.length : Nat)) with
  | none => none
  | some before =>
    match sliceFrom md (Index md endMarker) with
    | none => none
    | some after => some (newMd before title content after)

/-- How many positions of `s` carry an occurrence of `sep` (the spec's "exactly
once" is `occurrences sep s = 1`). -/
def occurrences (sep : List UInt8) : List UInt8 → Nat
  | [] => if sep.isPrefixOf [] then 1 else 0
  | x :: t => (if sep.isPrefixOf (x :: t) then 1 else 0) + occurrences sep t

/-! ## Strings and numbers of the summary

A Go `string` of the summary (game names, the literals, the formatted duration) is
valid UTF-8 and is modelled by a `String`, a sequence of codepoints, so that
`utf8.RuneCountInString` counts the elements of `String.toList`.  A Go `int` (64 bits) is
an `Int`; the one operation of `box.go` on `int` that can leave the range of the type,
the subtraction of `pad`, wraps around (`subInt`). -/

/-- The library function `strings.Repeat(s, count)` for `count ≥ 0`: `count` copies of
`s`.  (`pad` calls it with a positive count only.  The size of the memory is not modelled:
a `String` can be as long as the count asks for.) -/
def Repeat (s : String) : Nat → String
  | 0 => ""
  | count + 1 => s ++ Repeat s count

/-- Go's `x - y` on the type `int` (64 bits, two's complement): the difference wraps
around. -/
def subInt (x y : Int) : Int :=
  (x - y + 2 ^ 63) % 2 ^ 64 - 2 ^ 63

/-- The library function `utf8.RuneCountInString(s)`, an `int`: the number of codepoints
of `s`.  (A Go string has fewer than `2^63` bytes; a longer sequence counts as
`2^63 - 1`.) -/
def RuneCountInString (s : String) : Int :=
  min (s.length : Int) (2 ^ 63 - 1)

/-- The function `pad`:
```go
padding := targetLength - utf8.RuneCountInString(s)
if padding <= 0 { return s }
return s + strings.Repeat(pad, padding)
``` -/
def pad (s pad : String) (targetLength : Int) : String :=
  let padding := subInt targetLength (RuneCountInString s)
  if padding ≤ 0 then s else s ++ Repeat pad padding.toNat

/-- The table `nameEmojiMap` of `getNameEmoji`. -/
def nameEmojiMap : List (Int × String) :=
  [ (730, "🔫 "),     -- CS:GO
    (222880, "🔫 "),  -- Insurgency
    (265630, "🔫 "),  -- Fistful of Frags
    (271590, "🚓 "),  -- GTA 5
    (578080, "🍳 "),  -- PUBG
    (431960, "💻 "),  -- Wallpaper Engine
    (8930, "🌏 "),    -- Sid Meier's Civilization V
    (644560, "🔞 "),  -- Mirror
    (359550, "🔫 ") ] -- Tom Clancy's Rainbow Six Siege

/-- The function `getNameEmoji`. -/
def getNameEmoji (id : Int) (name : String) : String :=
  match nameEmojiMap.lookup id with
  | some emoji => emoji ++ name
  | none => name

/-- The number of binary digits of `a`; `fuel` bounds the number of halvings, and `a`
itself is enough of it. -/
def bitLen : Nat → Nat → Nat
  | 0, _ => 0
  | fuel + 1, a => if a = 0 then 0 else bitLen fuel (a / 2) + 1

/-- The conversion `float64(n)` of an integer, as the integer the resulting float
denotes: `n` itself when `|n| < 2^53`, otherwise `n` rounded to 53 significant bits,
ties to even.  (`math.Floor` of that float and the conversion back with `int(...)` do
not change it, for the values a 64-bit `int` holds.) -/
def float64 (n : Int) : Int :=
  let a := n.natAbs
  if a < 2 ^ 53 then n
  else
    let e := bitLen a a - 53
    let q := a / 2 ^ e
    let r := a % 2 ^ e
    let half := 2 ^ (e - 1)
    let q' := if half < r ∨ (r = half ∧ q % 2 = 1) then q + 1 else q
    n.sign * ((q' * 2 ^ e : Nat) : Int)

/-- The duration text of a line of `GetPlayTime`, from `game.Playtime2Weeks`:
```go
hours := int(math.Floor(float64(game.Playtime2Weeks / 60)))
mins := int(math.Floor(float64(game.Playtime2Weeks % 60)))
fmt.Sprintf("%d hrs %d mins", hours, mins)
```
Go's `/` and `%` truncate towards zero. -/
def duration (playtime2Weeks : Int) : String :=
  let hours := float64 (Int.tdiv playtime2Weeks 60)
  let mins := float64 (Int.tmod playtime2Weeks 60)
  toString hours ++ " hrs " ++ toString mins ++ " mins"

/-! ## GetPlayTime -/

/-- An entry of `RecentlyPlayedGames.Games` (package steam-go), with the fields that
`GetPlayTime` reads. -/
structure Game where
  Appid : Int
  Name : String
  Playtime2Weeks : Int
  PlaytimeForever : Int
deriving DecidableEq, Repr

/-- The answer of `IPlayerService.GetRecentlyPlayedGames` (package steam-go), with the
fields that `GetPlayTime` reads. -/
structure RecentlyPlayedGames where
  TotalCount : Int
  Games : List Game
deriving DecidableEq, Repr

/-- The inner loop of the library's insertion sort,
`for j := i; j > a && less(j, j-1); j-- { swap(j, j-1) }`: `x` is `data[i]` and the
list is the sorted part `data[a:i]` read from `data[i-1]` down to `data[a]`; the result
is `data[a:i+1]` read the same way. -/
def insertionStep {α : Type} (less : α → α → Bool) (x : α) : List α → List α
  | [] => [x]
  | y :: rev => if less x y then y :: insertionStep less x rev else x :: y :: rev

/-- The library's insertion sort on a whole slice: the loop `for i := a + 1; i < b; i++`
around the loop of `insertionStep`. -/
def insertionSort {α : Type} (data : List α) (less : α → α → Bool) : List α :=
  (data.foldl (fun rev x => insertionStep less x rev) []).reverse

/-- The library's `insertionSort_func(data, a, b)`: the insertion sort of `data[a:b]`,
the rest of `data` left as it is. -/
def insertionSort_func {α : Type} (less : α → α → Bool) (data : List α) (a b : Nat) :
    List α :=
  data.take a ++ insertionSort ((data.drop a).take (b - a)) less ++ (data.drop a).drop (b - a)

/-- The call `data.Swap(i, j)`. -/
def swapAt {α : Type} (data : List α) (i j : Nat) : List α :=
  match data[i]?, data[j]? with
  | some x, some y => (data.set i y).set j x
  | _, _ => data

/-- The call `data.Less(i, j)`. -/
def lessAt {α : Type} (less : α → α → Bool) (data : List α) (i j : Nat) : Bool :=
  match data[i]?, data[j]? with
  | some x, some y => less x y
  | _, _ => false

/-- The loop `for i < b && cond(i) { i++ }`, as the final `i`; it ends within `b - i`
steps, and `fuel` is at least that. -/
def scanUp (cond : Nat → Bool) : Nat → Nat → Nat → Nat
  | 0, i, _ => i
  | fuel + 1, i, b => if i < b ∧ cond i = true then scanUp cond fuel (i + 1) b else i

/-- The loop `for i <= j && cond(j) { j-- }`, as the final `j`; it ends within
`j + 1 - i` steps, and `fuel` is at least that.  (In the library `i ≥ 1` here.) -/
def scanDown (cond : Nat → Bool) : Nat → Nat → Nat → Nat
  | 0, _, j => j
  | fuel + 1, i, j => if i ≤ j ∧ cond j = true then scanDown cond fuel i (j - 1) else j

/-- The library's `siftDown_func(data, lo, hi, first)`; `root` starts at `lo`:
```go
for {
	child := 2*root + 1
	if child >= hi { return }
	if child+1 < hi && data.Less(first+child, first+child+1) { child++ }
	if !data.Less(first+root, first+child) { return }
	data.Swap(first+root, first+child)
	root = child
}
``` -/
def siftDown_func {α : Type} (less : α → α → Bool) : Nat → List α → Nat → Nat → Nat → List α
  | 0, data, _, _, _ => data
  | fuel + 1, data, root, hi, first =>
    let child := 2 * root + 1
    if child ≥ hi then data
    else
      let child :=
        if child + 1 < hi ∧ lessAt less data (first + child) (first + child + 1) = true
        then child + 1 else child
      if lessAt less data (first + root) (first + child) = false then data
      else siftDown_func less fuel (swapAt data (first + root) (first + child)) child hi first

/-- The library's `heapSort_func(data, a, b)`:
```go
first := a; lo := 0; hi := b - a
for i := (hi - 1) / 2; i >= 0; i-- { siftDown_func(data, i, hi, first) }
for i := hi - 1; i >= 0; i-- {
	data.Swap(first, first+i)
	siftDown_func(data, lo, i, first)
}
``` -/
def heapSort_func {α : Type} (less : α → α → Bool) (data : List α) (a b : Nat) : List α :=
  let first := a
  let hi := b - a
  let heap := (List.range ((hi - 1) / 2 + 1)).reverse.foldl
    (fun d i => siftDown_func less hi d i hi first) data
  (List.range hi).reverse.foldl
    (fun d i => siftDown_func less hi (swapAt d first (first + i)) 0 i first) heap

/-- The loop that ends the library's `partition_func`, as the final `data` and `j`:
```go
for {
	for i <= j && data.Less(i, a) { i++ }
	for i <= j && !data.Less(j, a) { j-- }
	if i > j { break }
	data.Swap(i, j)
	i++
	j--
}
``` -/
def partitionLoop {α : Type} (less : α → α → Bool) (a : Nat) :
    Nat → List α → Nat → Nat → List α × Nat
  | 0, data, _, j => (data, j)
  | fuel + 1, data, i, j =>
    let i' := scanUp (fun i => lessAt less data i a) (j + 1 - i) i (j + 1)
    let j' := scanDown (fun j => !lessAt less data j a) (j + 1 - i') i' j
    if i' > j' then (data, j')
    else partitionLoop less a fuel (swapAt data i' j') (i' + 1) (j' - 1)

/-- The library's `partition_func(data, a, b, pivot)`, as the final `data`, the new
index of the pivot and `alreadyPartitioned`:
```go
data.Swap(a, pivot)
i, j := a+1, b-1
for i <= j && data.Less(i, a) { i++ }
for i <= j && !data.Less(j, a) { j-- }
if i > j {
	data.Swap(j, a)
	return j, true
}
data.Swap(i, j)
i++
j--
for { ... }  // partitionLoop
data.Swap(j, a)
return j, false
``` -/
def partition_func {α : Type} (less : α → α → Bool) (data : List α) (a b pivot : Nat) :
    List α × Nat × Bool :=
  let data := swapAt data a pivot
  let i := scanUp (fun i => lessAt less data i a) (b - a) (a + 1) b
  let j := scanDown (fun j => !lessAt less data j a) (b - a) i (b - 1)
  if i > j then (swapAt data j a, j, true)
  else
    let r := partitionLoop less a (b - a) (swapAt data i j) (i + 1) (j - 1)
    (swapAt r.1 r.2 a, r.2, false)

/-- The loop of the library's `partitionEqual_func`, as the final `data` and `i`:
```go
for {
	for i <= j && !data.Less(a, i) { i++ }
	for i <= j && data.Less(a, j) { j-- }
	if i > j { break }
	data.Swap(i, j)
	i++
	j--
}
``` -/
def partitionEqualLoop {α : Type} (less : α → α → Bool) (a : Nat) :
    Nat → List α → Nat → Nat → List α × Nat
  | 0, data, i, _ => (data, i)
  | fuel + 1, data, i, j =>
    let i' := scanUp (fun i => !lessAt less data a i) (j + 1 - i) i (j + 1)
    let j' := scanDown (fun j => lessAt less data a j) (j + 1 - i') i' j
    if i' > j' then (data, i')
    else partitionEqualLoop less a fuel (swapAt data i' j') (i' + 1) (j' - 1)

/-- The library's `partitionEqual_func(data, a, b, pivot)`: `data.Swap(a, pivot)`, then
the loop from `i, j := a+1, b-1`; the final `data` and the returned `i`. -/
def partitionEqual_func {α : Type} (less : α → α → Bool) (data : List α) (a b pivot : Nat) :
    List α × Nat :=
  partitionEqualLoop less a (b - a) (swapAt data a pivot) (a + 1) (b - 1)

/-- The first shifting loop of the library's `partialInsertionSort_func`:
`for j := i - 1; j >= 1; j-- { if !data.Less(j, j-1) { break }; data.Swap(j, j-1) }`. -/
def shiftSmaller {α : Type} (less : α → α → Bool) : Nat → List α → Nat → List α
  | 0, data, _ => data
  | fuel + 1, data, j =>
    if j ≥ 1 then
      if lessAt less data j (j - 1) = false then data
      else shiftSmaller less fuel (swapAt data j (j - 1)) (j - 1)
    else data

/-- The second shifting loop of the library's `partialInsertionSort_func`:
`for j := i + 1; j < b; j++ { if !data.Less(j, j-1) { break }; data.Swap(j, j-1) }`. -/
def shiftGreater {α : Type} (less : α → α → Bool) (b : Nat) : Nat → List α → Nat → List α
  | 0, data, _ => data
  | fuel + 1, data, j =>
    if j < b then
      if lessAt less data j (j - 1) = false then data
      else shiftGreater less b fuel (swapAt data j (j - 1)) (j + 1)
    else data

/-- The loop `for j := 0; j < maxSteps; j++` of the library's
`partialInsertionSort_func`, `steps` being the number of rounds left:
```go
for i < b && !data.Less(i, i-1) { i++ }
if i == b { return true }
if b-a < shortestShifting { return false }   // shortestShifting = 50
data.Swap(i, i-1)
if i-a >= 2 { ... }   // shiftSmaller
if b-i >= 2 { ... }   // shiftGreater
``` -/
def partialInsertionSortLoop {α : Type} (less : α → α → Bool) (a b : Nat) :
    Nat → List α → Nat → List α × Bool
  | 0, data, _ => (data, false)
  | steps + 1, data, i =>
    let i' := scanUp (fun i => !lessAt less data i (i - 1)) (b - i) i b
    if i' = b then (data, true)
    else if b - a < 50 then (data, false)
    else
      let d1 := swapAt data i' (i' - 1)
      let d2 := if i' - a ≥ 2 then shiftSmaller less i' d1 (i' - 1) else d1
      let d3 := if b - i' ≥ 2 then shiftGreater less b (b - i') d2 (i' + 1) else d2
      partialInsertionSortLoop less a b steps d3 i'

/-- The library's `partialInsertionSort_func(data, a, b)`: at most `maxSteps = 5` rounds
from `i := a + 1`; the final `data` and whether the slice is known to be sorted. -/
def partialInsertionSort_func {α : Type} (less : α → α → Bool) (data : List α) (a b : Nat) :
    List α × Bool :=
  partialInsertionSortLoop less a b 5 data (a + 1)

/-- The library's generator `xorshift.Next` on a `uint64` state:
`*r ^= *r << 13; *r ^= *r >> 7; *r ^= *r << 17`. -/
def xorshiftNext (r : Nat) : Nat :=
  let r1 := r ^^^ ((r <<< 13) % 2 ^ 64)
  let r2 := r1 ^^^ (r1 >>> 7)
  r2 ^^^ ((r2 <<< 17) % 2 ^ 64)

/-- The library's `breakPatterns_func(data, a, b)`:
```go
length := b - a
if length >= 8 {
	random := xorshift(length)
	modulus := nextPowerOfTwo(length)   // 1 << bits.Len(uint(length))
	idx := a + (length/4)*2 - 1
	for i := 0; i < 3; i++ {
		other := int(uint(random.Next()) & (modulus - 1))
		if other >= length { other -= length }
		data.Swap(idx+i, a+other)
	}
}
``` -/
def breakPatterns_func {α : Type} (data : List α) (a b : Nat) : List α :=
  let length := b - a
  if length ≥ 8 then
    let modulus := 2 ^ bitLen length length
    let idx := a + (length / 4) * 2 - 1
    let other := fun (r : Nat) => if r % modulus ≥ length then r % modulus - length else r % modulus
    let r1 := xorshiftNext length
    let r2 := xorshiftNext r1
    let r3 := xorshiftNext r2
    let d1 := swapAt data idx (a + other r1)
    let d2 := swapAt d1 (idx + 1) (a + other r2)
    swapAt d2 (idx + 2) (a + other r3)
  else data

/-- The library's `sortedHint`. -/
inductive sortedHint where
  | unknownHint
  | increasingHint
  | decreasingHint
deriving DecidableEq, Repr

/-- The library's `order2_func(data, a, b, swaps)`: the two indices in order, and the
counter `*swaps`. -/
def order2_func {α : Type} (less : α → α → Bool) (data : List α) (a b swaps : Nat) :
    Nat × Nat × Nat :=
  if lessAt less data b a = true then (b, a, swaps + 1) else (a, b, swaps)

/-- The library's `median_func(data, a, b, c, swaps)`:
```go
a, b = order2_func(data, a, b, swaps)
b, c = order2_func(data, b, c, swaps)
a, b = order2_func(data, a, b, swaps)
return b
``` -/
def median_func {α : Type} (less : α → α → Bool) (data : List α) (a b c swaps : Nat) :
    Nat × Nat :=
  let r1 := order2_func less data a b swaps
  let r2 := order2_func less data r1.2.1 c r1.2.2
  let r3 := order2_func less data r1.1 r2.1 r2.2.2
  (r3.2.1, r3.2.2)

/-- The library's `medianAdjacent_func(data, a, swaps)`. -/
def medianAdjacent_func {α : Type} (less : α → α → Bool) (data : List α) (a swaps : Nat) :
    Nat × Nat :=
  median_func less data (a - 1) a (a + 1) swaps

/-- The library's `choosePivot_func(data, a, b)`:
```go
l := b - a
var ( swaps int; i = a + l/4*1; j = a + l/4*2; k = a + l/4*3 )
if l >= 8 {
	if l >= shortestNinther {   // shortestNinther = 50
		i = medianAdjacent_func(data, i, &swaps)
		j = medianAdjacent_func(data, j, &swaps)
		k = medianAdjacent_func(data, k, &swaps)
	}
	j = median_func(data, i, j, k, &swaps)
}
switch swaps {
case 0: return j, increasingHint
case maxSwaps: return j, decreasingHint   // maxSwaps = 4 * 3
default: return j, unknownHint
}
``` -/
def choosePivot_func {α : Type} (less : α → α → Bool) (data : List α) (a b : Nat) :
    Nat × sortedHint :=
  let l := b - a
  let i := a + l / 4 * 1
  let j := a + l / 4 * 2
  let k := a + l / 4 * 3
  let r :=
    if l ≥ 8 then
      if l ≥ 50 then
        let ri := medianAdjacent_func less data i 0
        let rj := medianAdjacent_func less data j ri.2
        let rk := medianAdjacent_func less data k rj.2
        median_func less data ri.1 rj.1 rk.1 rk.2
      else median_func less data i j k 0
    else (j, 0)
  if r.2 = 0 then (r.1, sortedHint.increasingHint)
  else if r.2 = 12 then (r.1, sortedHint.decreasingHint)
  else (r.1, sortedHint.unknownHint)

/-- The loop of the library's `reverseRange_func`, from `i := a` and `j := b - 1`:
`for i < j { data.Swap(i, j); i++; j-- }`. -/
def reverseRangeLoop {α : Type} : Nat → List α → Nat → Nat → List α
  | 0, data, _, _ => data
  | fuel + 1, data, i, j =>
    if i < j then reverseRangeLoop fuel (swapAt data i j) (i + 1) (j - 1) else data

/-- The library's `reverseRange_func(data, a, b)`. -/
def reverseRange_func {α : Type} (data : List α) (a b : Nat) : List α :=
  reverseRangeLoop (b - a) data a (b - 1)

/-- The part of a round of the loop of `pdqsort_func` (below) that comes before the
partition, from `if !wasBalanced` to the call of `partialInsertionSort_func`: the data it
leaves, whether the slice is known to be sorted (the round then returns), the pivot and
the new value of `limit`. -/
def pdqsortRound {α : Type} (less : α → α → Bool) (data : List α)
    (a b limit : Nat) (wasBalanced wasPartitioned : Bool) : List α × Bool × Nat × Nat :=
  let d1 := if wasBalanced = false then breakPatterns_func data a b else data
  let limit1 := if wasBalanced = false then limit - 1 else limit
  let ph := choosePivot_func less d1 a b
  let d2 := if ph.2 = sortedHint.decreasingHint then reverseRange_func d1 a b else d1
  let pivot := if ph.2 = sortedHint.decreasingHint then (b - 1) - (ph.1 - a) else ph.1
  let hint := if ph.2 = sortedHint.decreasingHint then sortedHint.increasingHint else ph.2
  let tried :=
    if wasBalanced = true ∧ wasPartitioned = true ∧ hint = sortedHint.increasingHint
    then partialInsertionSort_func less d2 a b else (d2, false)
  (tried.1, tried.2, pivot, limit1)

/-- The library's `pdqsort_func(data, a, b, limit)`, Go 1.19 and later; `wasBalanced` and
`wasPartitioned` are its two local variables, `true` at a call.  Every round of its loop
makes `b - a` smaller, and so does the call inside a round: `fuel` is taken larger than
`b - a`.
```go
for {
	length := b - a
	if length <= maxInsertion {   // maxInsertion = 12
		insertionSort_func(data, a, b)
		return
	}
	if limit == 0 {
		heapSort_func(data, a, b)
		return
	}
	if !wasBalanced {
		breakPatterns_func(data, a, b)
		limit--
	}
	pivot, hint := choosePivot_func(data, a, b)
	if hint == decreasingHint {
		reverseRange_func(data, a, b)
		pivot = (b - 1) - (pivot - a)
		hint = increasingHint
	}
	if wasBalanced && wasPartitioned && hint == increasingHint {
		if partialInsertionSort_func(data, a, b) { return }
	}
	if a > 0 && !data.Less(a-1, pivot) {
		mid := partitionEqual_func(data, a, b, pivot)
		a = mid
		continue
	}
	mid, alreadyPartitioned := partition_func(data, a, b, pivot)
	wasPartitioned = alreadyPartitioned
	leftLen, rightLen := mid-a, b-mid
	balanceThreshold := length / 8
	if leftLen < rightLen {
		wasBalanced = leftLen >= balanceThreshold
		pdqsort_func(data, a, mid, limit)
		a = mid + 1
	} else {
		wasBalanced = rightLen >= balanceThreshold
		pdqsort_func(data, mid+1, b, limit)
		b = mid
	}
}
``` -/
def pdqsort_func {α : Type} (less : α → α → Bool) :
    Nat → List α → Nat → Nat → Nat → Bool → Bool → List α
  | 0, data, _, _, _, _, _ => data
  | fuel + 1, data, a, b, limit, wasBalanced, wasPartitioned =>
    if b - a ≤ 12 then insertionSort_func less data a b
    else if limit = 0 then heapSort_func less data a b
    else
      match pdqsortRound less data a b limit wasBalanced wasPartitioned with
      | (d, true, _, _) => d
      | (d, false, pivot, limit1) =>
        if a > 0 ∧ lessAt less d (a - 1) pivot = false then
          match partitionEqual_func less d a b pivot with
          | (d', mid) => pdqsort_func less fuel d' mid b limit1 wasBalanced wasPartitioned
        else
          match partition_func less d a b pivot with
          | (d', mid, alreadyPartitioned) =>
            if mid - a < b - mid then
              pdqsort_func less fuel (pdqsort_func less fuel d' a mid limit1 true true)
                (mid + 1) b limit1 (decide (mid - a ≥ (b - a) / 8)) alreadyPartitioned
            else
              pdqsort_func less fuel (pdqsort_func less fuel d' (mid + 1) b limit1 true true)
                a mid limit1 (decide (b - mid ≥ (b - a) / 8)) alreadyPartitioned

/-- The library function `sort.Slice(data, less)`, `less` given on elements:
`pdqsort_func(data, 0, length, bits.Len(uint(length)))`. -/
def sortSlice {α : Type} (data : List α) (less : α → α → Bool) : List α :=
  pdqsort_func less (data.length + 1) data 0 data.length
    (bitLen data.length data.length) true true

/-- The comparison passed to `sort.Slice` in `GetPlayTime`. -/
def less (a b : Game) : Bool :=
  decide (a.PlaytimeForever > b.PlaytimeForever)

/-- The line appended for `game` in the loop of `GetPlayTime`. -/
def line (game : Game) : String :=
  pad (getNameEmoji game.Appid game.Name) " " 35 ++ " " ++
    pad (duration game.Playtime2Weeks) "" 16

/-- The loop `for _, game := range gameRet.Games` of `GetPlayTime`, with its counter
`max` and the slice `lines` built so far. -/
def rangeGames : List Game → Nat → List String → List String
  | [], _, lines => lines
  | game :: rest, max, lines =>
    if max ≥ 3 then lines
    else rangeGames rest (max + 1) (lines ++ [line game])

/-- The number of records that `GetPlayTime` asks the API for, the `Count: 5` of its
`GetRecentlyPlayedGamesParams`.  (The answer is not checked against it.) -/
def Count : Nat :=
  5

/-- The function `GetPlayTime`, from the answer `gameRet` of the API call to its `lines`
(the error returned with them is `nil`). -/
def GetPlayTime (gameRet : RecentlyPlayedGames) : List String :=
  if gameRet.TotalCount = 0 then ["Haven't played games recently"]
  else rangeGames (sortSlice gameRet.Games less) 0 []

/-- Thirteen records, `g0` to `g11` with `PlaytimeForever = 0` and `g12` with 1. -/
def thirteenGames : List Game :=
  [⟨0, "g0", 0, 0⟩, ⟨1, "g1", 0, 0⟩, ⟨2, "g2", 0, 0⟩, ⟨3, "g3", 0, 0⟩, ⟨4, "g4", 0, 0⟩,
    ⟨5, "g5", 0, 0⟩, ⟨6, "g6", 0, 0⟩, ⟨7, "g7", 0, 0⟩, ⟨8, "g8", 0, 0⟩, ⟨9, "g9", 0, 0⟩,
    ⟨10, "g10", 0, 0⟩, ⟨11, "g11", 0, 0⟩, ⟨12, "g12", 0, 1⟩]

/-! ## Notions used to state that the sort sorts -/

/-- The key `data[i].PlaytimeForever` of the game at index `i` (0 outside the slice). -/
def keyAt (data : List Game) (i : Nat) : Int :=
  match data[i]? with
  | some g => g.PlaytimeForever
  | none => 0

/-- The slice `d'` comes from `d` by moves inside `[a, b)`: the keys outside are those of
`d`, and every key inside is a key of `d` inside. -/
def Frame (d d' : List Game) (a b : Nat) : Prop :=
  d'.length = d.length ∧ (∀ k, k < a ∨ b ≤ k → keyAt d' k = keyAt d k) ∧
    ∀ k, a ≤ k → k < b → ∃ m, a ≤ m ∧ m < b ∧ keyAt d' k = keyAt d m

/-- The keys of `data[a:b]` are in descending order. -/
def SortedOn (data : List Game) (a b : Nat) : Prop :=
  ∀ i j, a ≤ i → i < j → j < b → keyAt data j ≤ keyAt data i

/-- The heap order of `heapSort_func` at the node `r` of the heap `data[first:first+hi]`:
neither child of `r` sorts before `r`. -/
def HeapAt (data : List Game) (first hi r : Nat) : Prop :=
  ∀ c, (c = 2 * r + 1 ∨ c = 2 * r + 2) → c < hi →
    keyAt data (first + r) ≤ keyAt data (first + c)

/-- The state of `data[a:b]` after `partition_func` has returned `mid`: the keys before
`mid` are larger than the key at `mid`, the keys after `mid` are not. -/
def Partitioned (data : List Game) (a mid b : Nat) : Prop :=
  (∀ k, a ≤ k → k < mid → keyAt data mid < keyAt data k)
    ∧ ∀ k, mid < k → k < b → keyAt data k ≤ keyAt data mid

/-! ## Facts about `Index` -/

theorem neg_one_le_Index (s sep : List UInt8) : -1 ≤ Index s sep := by
  induction s with
  | nil => unfold Index; split <;> omega
  | cons x t ih =>
    unfold Index
    split
    · omega
    · simp only []
      split <;> omega

/-- Either `Index` finds nothing, and then `sep` occurs nowhere, or it returns the
least position at which `sep` occurs. -/
theorem Index_spec (s sep : List UInt8) :
    (Index s sep = -1 ∧ ∀ j, j ≤ s.length → ¬ sep <+: s.drop j) ∨
    (∃ i : Nat, Index s sep = i ∧ i ≤ s.length ∧ sep <+: s.drop i ∧
      ∀ j, j < i → ¬ sep <+: s.drop j) := by
  induction s with
  | nil =>
    unfold Index
    by_cases h : sep.isPrefixOf [] = true
    · right
      refine ⟨0, by simp [h], le_refl _, ?_, by simp⟩
      simpa [List.isPrefixOf_iff_prefix] using h
    · left
      refine ⟨by simp [h], ?_⟩
      intro j _
      simpa [List.isPrefixOf_iff_prefix] using h
  | cons x t ih =>
    unfold Index
    by_cases h : sep.isPrefixOf (x :: t) = true
    · right
      refine ⟨0, by simp [h], Nat.zero_le _, ?_, by simp⟩
      simpa [List.isPrefixOf_iff_prefix] using h
    · have h0 : ¬ sep <+: x :: t := by
        simpa [List.isPrefixOf_iff_prefix] using h
      rcases ih with ⟨hi, hno⟩ | ⟨i, hi, hle, hocc, hmin⟩
      · left
        refine ⟨by simp [h, hi], ?_⟩
        intro j hj
        cases j with
        | zero => simpa using h0
        | succ j =>
          simp only [List.drop_succ_cons]
          exact hno j (by simpa using hj)
      · right
        refine ⟨i + 1, ?_, by simpa using hle, by simpa using hocc, ?_⟩
        · have : ¬ ((i : Int) < 0) := by omega
          simp [h, hi, this]
        · intro j hj
          cases j with
          | zero => simpa using h0
          | succ j =>
            simp only [List.drop_succ_cons]
            exact hmin j (by omega)

/-- The position `Index` returns is the least one carrying an occurrence. -/
theorem Index_eq_of_first (s sep : List UInt8) (k : Nat) (hk : k ≤ s.length)
    (hocc : sep <+: s.drop k) (hmin : ∀ j, j < k → ¬ sep <+: s.drop j) :
    Index s sep = k := by
  rcases Index_spec s sep with ⟨_, hno⟩ | ⟨i, hi, _, hocc', hmin'⟩
  · exact absurd hocc (hno k hk)
  · rw [hi]
    rcases Nat.lt_trichotomy i k with h | h | h
    · exact absurd hocc' (hmin i h)
    · rw [h]
    · exact absurd hocc (hmin' k h)

theorem occurrences_pos (sep s : List UInt8) (k : Nat) (hk : k ≤ s.length)
    (h : sep <+: s.drop k) : 0 < occurrences sep s := by
  induction s generalizing k with
  | nil =>
    have hp : sep.isPrefixOf [] = true := by
      simpa [List.isPrefixOf_iff_prefix] using h
    simp [occurrences, hp]
  | cons x t ih =>
    cases k with
    | zero =>
      have hp : sep.isPrefixOf (x :: t) = true := by
        simpa [List.isPrefixOf_iff_prefix] using h
      simp [occurrences, hp]
    | succ k =>
      have := ih k (by simpa using hk) (by simpa using h)
      simp only [occurrences]
      omega

/-- When `sep` occurs exactly once, any two positions carrying it coincide. -/
theorem occurrence_unique (sep s : List UInt8) (h1 : occurrences sep s = 1) (i j : Nat)
    (hi : i ≤ s.length) (hj : j ≤ s.length) (oi : sep <+: s.drop i)
    (oj : sep <+: s.drop j) : i = j := by
  induction s generalizing i j with
  | nil =>
    simp only [List.length_nil, Nat.le_zero_eq] at hi hj
    omega
  | cons x t ih =>
    simp only [occurrences] at h1
    cases i with
    | zero =>
      cases j with
      | zero => rfl
      | succ j =>
        have hp : sep.isPrefixOf (x :: t) = true := by
          simpa [List.isPrefixOf_iff_prefix] using oi
        have := occurrences_pos sep t j (by simpa using hj) (by simpa using oj)
        simp only [hp, if_true] at h1
        omega
    | succ i =>
      cases j with
      | zero =>
        have hp : sep.isPrefixOf (x :: t) = true := by
          simpa [List.isPrefixOf_iff_prefix] using oj
        have := occurrences_pos sep t i (by simpa using hi) (by simpa using oi)
        simp only [hp, if_true] at h1
        omega
      | succ j =>
        have hpos := occurrences_pos sep t i (by simpa using hi) (by simpa using oi)
        have h1' : occurrences sep t = 1 := by
          split at h1 <;> omega
        have := ih h1' i j (by simpa using hi) (by simpa using hj) (by simpa using oi)
          (by simpa using oj)
        omega

theorem prefix_drop_append (a sep b : List UInt8) : sep <+: (a ++ sep ++ b).drop a.length := by
  rw [List.append_assoc, List.drop_left]
  exact List.prefix_append sep b

/-- A marker that occurs exactly once is found where it stands. -/
theorem Index_of_once (a sep b : List UInt8) (h : occurrences sep (a ++ sep ++ b) = 1) :
    Index (a ++ sep ++ b) sep = a.length := by
  have hk : a.length ≤ (a ++ sep ++ b).length := by
    simp only [List.length_append]; omega
  apply Index_eq_of_first _ _ _ hk (prefix_drop_append a sep b)
  intro j hj hocc
  have := occurrence_unique sep _ h j a.length (by omega) hk hocc (prefix_drop_append a sep b)
  omega

theorem sliceTo_of_le (md spare : List UInt8) (k : Nat) (hk : k ≤ md.length) :
    sliceTo md spare k = some (md.take k) := by
  have h : (0 : Int) ≤ k ∧ (k : Int) ≤ (md.length + spare.length : Nat) := by
    constructor <;> omega
  simp only [sliceTo, h, and_self, if_true, Int.toNat_ofNat]
  rw [List.take_append_of_le_length hk]

theorem sliceFrom_of_le (md : List UInt8) (k : Nat) (hk : k ≤ md.length) :
    sliceFrom md k = some (md.drop k) := by
  have h : (0 : Int) ≤ k ∧ (k : Int) ≤ (md.length : Nat) := by
    constructor <;> omega
  simp only [sliceFrom, h, and_self, if_true, Int.toNat_ofNat]

/-- The splice of a document whose markers are found at `pre.length` and at
`(pre ++ start ++ mid).length`. -/
theorem UpdateMarkdown_of_Index (title content pre mid post spare : List UInt8)
    (hs : Index (pre ++ start ++ mid ++ endMarker ++ post) start = pre.length)
    (he : Index (pre ++ start ++ mid ++ endMarker ++ post) endMarker
      = (pre ++ start ++ mid).length) :
    UpdateMarkdown title (pre ++ start ++ mid ++ endMarker ++ post) spare content
      = some (newMd (pre ++ start) title content (endMarker ++ post)) := by
  have h1 : sliceTo (pre ++ start ++ mid ++ endMarker ++ post) spare
      ((pre.length : Int) + (start.length : Nat)) = some (pre ++ start) := by
    have := sliceTo_of_le (pre ++ start ++ mid ++ endMarker ++ post) spare
      (pre.length + start.length) (by simp only [List.length_append]; omega)
    rw [← Nat.cast_add, this]
    congr 1
    rw [← List.length_append]
    simp only [List.append_assoc]
    rw [← List.append_assoc]
    exact List.take_left _ _
  have h2 : sliceFrom (pre ++ start ++ mid ++ endMarker ++ post)
      ((pre ++ start ++ mid).length : Nat) = some (endMarker ++ post) := by
    rw [sliceFrom_of_le _ _ (by simp only [List.length_append]; omega)]
    congr 1
    rw [List.append_assoc (pre ++ start ++ mid)]
    exact List.drop_left _ _
  simp only [UpdateMarkdown, hs, he, h1, h2]

/-- C1. For every document `pre ++ START ++ mid ++ END ++ post` in which each marker
occurs exactly once, and every title and body, the splice of `UpdateMarkdown` produces
exactly `pre ++ START ++ "\n" ++ title ++ "\n" ++ fence opening ++ body ++ "\n" ++
fence closing ++ attribution line ++ END ++ post`. -/
theorem UpdateMarkdown_splice (title content pre mid post spare : List UInt8)
    (hstart : occurrences start (pre ++ start ++ mid ++ endMarker ++ post) = 1)
    (hend : occurrences endMarker (pre ++ start ++ mid ++ endMarker ++ post) = 1) :
    UpdateMarkdown title (pre ++ start ++ mid ++ endMarker ++ post) spare content
      = some (pre ++ start ++ bytes "\n" ++ title ++ bytes "\n" ++ bytes "```text\n"
          ++ content ++ bytes "\n" ++ bytes "```\n"
          ++ bytes "<!-- Powered by https://github.com/YouEclipse/steam-box . -->\n"
          ++ endMarker ++ post) := by
  have hs : Index (pre ++ start ++ mid ++ endMarker ++ post) start = pre.length := by
    have h := hstart
    rw [List.append_assoc (pre ++ start), List.append_assoc (pre ++ start)] at h ⊢
    exact Index_of_once pre start _ h
  have he : Index (pre ++ start ++ mid ++ endMarker ++ post) endMarker
      = (pre ++ start ++ mid).length := Index_of_once (pre ++ start ++ mid) endMarker post hend
  rw [UpdateMarkdown_of_Index title content pre mid post spare hs he]
  simp only [newMd, poweredBy, List.append_assoc]

set_option maxRecDepth 100000 in
/-- C1 at the spec's scenario: document `"A\n<!-- steam-box start -->\nOLD\n<!-- steam-box
end -->\nB\n"`, title `"Updated:"`, body `"line1"`. -/
theorem UpdateMarkdown_splice_witness :
    occurrences start (bytes "A\n" ++ start ++ bytes "\nOLD\n" ++ endMarker ++ bytes "\nB\n") = 1
    ∧ occurrences endMarker
        (bytes "A\n" ++ start ++ bytes "\nOLD\n" ++ endMarker ++ bytes "\nB\n") = 1
    ∧ bytes "A\n" ++ start ++ bytes "\nOLD\n" ++ endMarker ++ bytes "\nB\n"
        = bytes "A\n<!-- steam-box start -->\nOLD\n<!-- steam-box end -->\nB\n"
    ∧ UpdateMarkdown (bytes "Updated:")
        (bytes "A\n<!-- steam-box start -->\nOLD\n<!-- steam-box end -->\nB\n") []
        (bytes "line1")
      = some (bytes ("A\n<!-- steam-box start -->\nUpdated:\n```text\nline1\n```\n"
          ++ "<!-- Powered by https://github.com/YouEclipse/steam-box . -->\n"
          ++ "<!-- steam-box end -->\nB\n")) :=
  ⟨by decide, by decide, by decide,
    (show bytes "A\n" ++ start ++ bytes "\nOLD\n" ++ endMarker ++ bytes "\nB\n"
        = bytes "A\n<!-- steam-box start -->\nOLD\n<!-- steam-box end -->\nB\n" by decide) ▸
      (UpdateMarkdown_splice (bytes "Updated:") (bytes "line1") (bytes "A\n") (bytes "\nOLD\n")
        (bytes "\nB\n") [] (by decide) (by decide)).trans (by decide)⟩

/-! ## Re-splicing -/

/-- An occurrence at position `k` bounds what `Index` returns. -/
theorem Index_le_of_occurrence (s sep : List UInt8) (k : Nat) (hk : k ≤ s.length)
    (hocc : sep <+: s.drop k) : ∃ i : Nat, Index s sep = i ∧ i ≤ k := by
  rcases Index_spec s sep with ⟨_, hno⟩ | ⟨i, hi, _, _, hmin⟩
  · exact absurd hocc (hno k hk)
  · refine ⟨i, hi, ?_⟩
    by_contra hlt
    exact hmin k (by omega) hocc

/-- Whether `sep` occurs at a position inside `p` does not depend on what follows
`p ++ sep`. -/
theorem prefix_drop_congr (p sep r r' : List UInt8) (j : Nat) (hj : j ≤ p.length)
    (h : sep <+: (p ++ sep ++ r).drop j) : sep <+: (p ++ sep ++ r').drop j := by
  have hle : j ≤ (p ++ sep).length := by
    simp only [List.length_append]; omega
  rw [List.drop_append_of_le_length hle] at h ⊢
  have hlen : sep.length ≤ ((p ++ sep).drop j).length := by
    simp only [List.length_drop, List.length_append]; omega
  exact (List.prefix_of_prefix_length_le h (List.prefix_append _ _) hlen).trans
    (List.prefix_append _ _)

/-- The first occurrence of `sep` is not moved by a change behind it. -/
theorem Index_stable (p sep r r' : List UInt8) (h : Index (p ++ sep ++ r) sep = p.length) :
    Index (p ++ sep ++ r') sep = p.length := by
  have hk : p.length ≤ (p ++ sep ++ r').length := by
    simp only [List.length_append]; omega
  apply Index_eq_of_first _ _ _ hk (prefix_drop_append p sep r')
  intro j hj hocc
  have hocc' := prefix_drop_congr p sep r' r j (by omega) hocc
  rcases Index_spec (p ++ sep ++ r) sep with ⟨hi, _⟩ | ⟨i, hi, _, _, hmin⟩
  · rw [h] at hi; omega
  · rw [h] at hi
    have : i = p.length := by omega
    exact hmin j (by omega) hocc'

/-- The splice of a document in which `Index` finds the start marker at `a` and the
end marker at `e`. -/
theorem UpdateMarkdown_of_found (title content md spare : List UInt8) (a e : Nat)
    (hs : Index md start = a) (ha : a + start.length ≤ md.length)
    (he : Index md endMarker = e) (hle : e ≤ md.length) :
    UpdateMarkdown title md spare content
      = some (newMd (md.take (a + start.length)) title content (md.drop e)) := by
  simp only [UpdateMarkdown, hs, he, ← Nat.cast_add, sliceTo_of_le md spare _ ha,
    sliceFrom_of_le md _ hle]

/-- C2. Round trip: for every document `D1 = pre ++ START ++ mid ++ END ++ post` holding
each marker exactly once, and all titles `t1`, `t2` and bodies `b1`, `b2` whatever their
content, the splice of `(t1, b1)` into `D1` gives a document `D2`, and the splice of
`(t2, b2)` into `D2` gives a document that still begins with `pre ++ START` and still ends
with `END ++ post`. -/
theorem UpdateMarkdown_round_trip (t1 b1 t2 b2 pre mid post spare1 spare2 : List UInt8)
    (hstart : occurrences start (pre ++ start ++ mid ++ endMarker ++ post) = 1)
    (hend : occurrences endMarker (pre ++ start ++ mid ++ endMarker ++ post) = 1) :
    ∃ D2 inner : List UInt8,
      UpdateMarkdown t1 (pre ++ start ++ mid ++ endMarker ++ post) spare1 b1 = some D2 ∧
      UpdateMarkdown t2 D2 spare2 b2 = some (pre ++ start ++ inner ++ endMarker ++ post) := by
  have hs : Index (pre ++ start ++ mid ++ endMarker ++ post) start = pre.length := by
    have h := hstart
    rw [List.append_assoc (pre ++ start), List.append_assoc (pre ++ start)] at h ⊢
    exact Index_of_once pre start _ h
  have he : Index (pre ++ start ++ mid ++ endMarker ++ post) endMarker
      = (pre ++ start ++ mid).length := Index_of_once (pre ++ start ++ mid) endMarker post hend
  -- the bytes the first splice puts between the markers
  obtain ⟨X, hX⟩ : ∃ X, newMd (pre ++ start) t1 b1 (endMarker ++ post)
      = pre ++ start ++ X ++ endMarker ++ post :=
    ⟨bytes "\n" ++ t1 ++ bytes "\n" ++ bytes "```text\n" ++ b1 ++ bytes "\n" ++ bytes "```\n"
      ++ poweredBy, by simp only [newMd, List.append_assoc]⟩
  have hs2 : Index (pre ++ start ++ X ++ endMarker ++ post) start = pre.length := by
    have h := hs
    rw [List.append_assoc (pre ++ start), List.append_assoc (pre ++ start)] at h ⊢
    exact Index_stable pre start _ _ h
  have hlen : (pre ++ start ++ X).length ≤ (pre ++ start ++ X ++ endMarker ++ post).length := by
    simp only [List.length_append]; omega
  obtain ⟨e, he2, hle⟩ := Index_le_of_occurrence (pre ++ start ++ X ++ endMarker ++ post)
    endMarker (pre ++ start ++ X).length hlen (prefix_drop_append _ _ _)
  refine ⟨pre ++ start ++ X ++ endMarker ++ post,
    bytes "\n" ++ t2 ++ bytes "\n" ++ bytes "```text\n" ++ b2 ++ bytes "\n" ++ bytes "```\n"
      ++ poweredBy ++ (pre ++ start ++ X).drop e, ?_, ?_⟩
  · rw [UpdateMarkdown_of_Index t1 b1 pre mid post spare1 hs he, hX]
  · rw [UpdateMarkdown_of_found t2 b2 _ spare2 pre.length e hs2
      (by simp only [List.length_append]; omega) he2 (by omega)]
    have htake : (pre ++ start ++ X ++ endMarker ++ post).take (pre.length + start.length)
        = pre ++ start := by
      rw [← List.length_append]
      simp only [List.append_assoc]
      rw [← List.append_assoc]
      exact List.take_left _ _
    have hdrop : (pre ++ start ++ X ++ endMarker ++ post).drop e
        = (pre ++ start ++ X).drop e ++ (endMarker ++ post) := by
      rw [List.append_assoc (pre ++ start ++ X)]
      exact List.drop_append_of_le_length hle
    rw [htake, hdrop]
    simp only [newMd, List.append_assoc]

set_option maxRecDepth 100000 in
/-- C2 at a document whose first body holds both markers: the second splice still keeps
`"A"` and the start marker in front and the end marker and `"B"` behind. -/
theorem UpdateMarkdown_round_trip_witness :
    occurrences start (bytes "A" ++ start ++ bytes "old" ++ endMarker ++ bytes "B") = 1
    ∧ occurrences endMarker (bytes "A" ++ start ++ bytes "old" ++ endMarker ++ bytes "B") = 1
    ∧ ∃ D2 inner : List UInt8,
      UpdateMarkdown (bytes "t1") (bytes "A" ++ start ++ bytes "old" ++ endMarker ++ bytes "B")
        [] (endMarker ++ start) = some D2 ∧
      UpdateMarkdown (bytes "t2") D2 [] (bytes "b2")
        = some (bytes "A" ++ start ++ inner ++ endMarker ++ bytes "B") :=
  ⟨by decide, by decide,
    UpdateMarkdown_round_trip (bytes "t1") (endMarker ++ start) (bytes "t2") (bytes "b2")
      (bytes "A") (bytes "old") (bytes "B") [] [] (by decide) (by decide)⟩

/-! ## Missing markers -/

/-- The result of `Index` is `-1` exactly when `sep` is not a contiguous part of `s`. -/
theorem Index_eq_neg_one_iff (s sep : List UInt8) : Index s sep = -1 ↔ ¬ sep <:+: s := by
  constructor
  · intro h hin
    obtain ⟨u, v, huv⟩ := hin
    rcases Index_spec s sep with ⟨_, hno⟩ | ⟨i, hi, _, _, _⟩
    · apply hno u.length
      · rw [← huv]; simp only [List.length_append]; omega
      · rw [← huv]; exact prefix_drop_append u sep v
    · rw [h] at hi; omega
  · intro h
    rcases Index_spec s sep with ⟨hi, _⟩ | ⟨i, _, _, hocc, _⟩
    · exact hi
    · exfalso
      apply h
      obtain ⟨v, hv⟩ := hocc
      exact ⟨s.take i, v, by rw [List.append_assoc, hv, List.take_append_drop]⟩

/-- Without the end marker the slice expression `md[bytes.Index(md, end):]` is `md[-1:]`
and panics, whatever the first slice expression gave. -/
theorem UpdateMarkdown_none_of_end_absent (title content md spare : List UInt8)
    (hend : ¬ endMarker <:+: md) : UpdateMarkdown title md spare content = none := by
  have he : Index md endMarker = -1 := (Index_eq_neg_one_iff md endMarker).mpr hend
  have h2 : sliceFrom md (-1) = none := by
    simp [sliceFrom]
  simp only [UpdateMarkdown, he, h2]
  split <;> rfl

/-- C3, as amended. For every document that contains neither the start marker nor the
end marker, the splice of `UpdateMarkdown` fails (a run-time panic of the slice
expression) and produces no output document. -/
theorem UpdateMarkdown_fails_without_markers (title content md spare : List UInt8)
    (hstart : ¬ start <:+: md) (hend : ¬ endMarker <:+: md) :
    Index md start = -1 ∧ UpdateMarkdown title md spare content = none :=
  ⟨(Index_eq_neg_one_iff md start).mpr hstart,
    UpdateMarkdown_none_of_end_absent title content md spare hend⟩

set_option maxRecDepth 100000 in
/-- C3 as amended, at the document `"# no markers here\n"`. -/
theorem UpdateMarkdown_fails_without_markers_witness :
    ¬ start <:+: bytes "# no markers here\n" ∧ ¬ endMarker <:+: bytes "# no markers here\n"
    ∧ Index (bytes "# no markers here\n") start = -1
    ∧ UpdateMarkdown (bytes "Updated:") (bytes "# no markers here\n") [] (bytes "line1") = none :=
  ⟨(Index_eq_neg_one_iff _ _).mp (by decide), (Index_eq_neg_one_iff _ _).mp (by decide),
    UpdateMarkdown_fails_without_markers (bytes "Updated:") (bytes "line1")
      (bytes "# no markers here\n") [] ((Index_eq_neg_one_iff _ _).mp (by decide))
      ((Index_eq_neg_one_iff _ _).mp (by decide))⟩

set_option maxRecDepth 100000 in
/-- C3 fails as stated: the document `"# Title\n<!-- steam-box end -->\n"` does not contain
the start marker, yet the splice produces an output document: `bytes.Index` returns `-1`,
`before` is `md[:23]`, and the block is written between `md[:23]` and the end marker. -/
theorem UpdateMarkdown_start_absent_counterexample :
    ¬ start <:+: bytes "# Title\n<!-- steam-box end -->\n"
    ∧ endMarker <:+: bytes "# Title\n<!-- steam-box end -->\n"
    ∧ UpdateMarkdown (bytes "Updated:") (bytes "# Title\n<!-- steam-box end -->\n") []
        (bytes "line1")
      = some (bytes ("# Title\n<!-- steam-box \nUpdated:\n```text\nline1\n```\n"
          ++ "<!-- Powered by https://github.com/YouEclipse/steam-box . -->\n"
          ++ "<!-- steam-box end -->\n")) :=
  ⟨(Index_eq_neg_one_iff _ _).mp (by decide), ⟨bytes "# Title\n", bytes "\n", by decide⟩,
    by decide⟩

/-- C4. For every document that contains the start marker but not the end marker, the
splice of `UpdateMarkdown` fails: no output document is produced. -/
theorem UpdateMarkdown_fails_without_end (title content md spare : List UInt8)
    (_hstart : start <:+: md) (hend : ¬ endMarker <:+: md) :
    UpdateMarkdown title md spare content = none :=
  UpdateMarkdown_none_of_end_absent title content md spare hend

set_option maxRecDepth 100000 in
/-- C4 at the document `"A\n<!-- steam-box start -->\nOLD\n"`. -/
theorem UpdateMarkdown_fails_without_end_witness :
    start <:+: bytes "A\n<!-- steam-box start -->\nOLD\n"
    ∧ ¬ endMarker <:+: bytes "A\n<!-- steam-box start -->\nOLD\n"
    ∧ UpdateMarkdown (bytes "Updated:") (bytes "A\n<!-- steam-box start -->\nOLD\n") []
        (bytes "line1") = none :=
  ⟨⟨bytes "A\n", bytes "\nOLD\n", by decide⟩, (Index_eq_neg_one_iff _ _).mp (by decide),
    UpdateMarkdown_fails_without_end (bytes "Updated:") (bytes "line1")
      (bytes "A\n<!-- steam-box start -->\nOLD\n") [] ⟨bytes "A\n", bytes "\nOLD\n", by decide⟩
      ((Index_eq_neg_one_iff _ _).mp (by decide))⟩

/-! ## Facts about `pad` -/

theorem Repeat_singleton_toList (c : Char) (count : Nat) :
    (Repeat (String.singleton c) count).toList = List.replicate count c := by
  induction count with
  | zero => rfl
  | succ k ih =>
    simp only [Repeat, String.toList, String.data_append] at ih ⊢
    rw [ih]
    rfl

theorem Repeat_empty (count : Nat) : Repeat "" count = "" := by
  induction count with
  | zero => rfl
  | succ k ih =>
    simp only [Repeat, ih]
    rfl

/-- An empty fill adds nothing. -/
theorem pad_empty_fill (s : String) (targetLength : Int) : pad s "" targetLength = s := by
  simp only [pad, Repeat_empty]
  split
  · rfl
  · exact String.ext (by simp)

/-- The codepoints of a padded string, for a fill of one codepoint, from the value of
`padding`. -/
theorem pad_singleton_toList_padding (s : String) (c : Char) (targetLength : Int) :
    (pad s (String.singleton c) targetLength).toList
      = s.toList
        ++ List.replicate (subInt targetLength (RuneCountInString s)).toNat c := by
  simp only [pad]
  split
  · rename_i h
    have : (subInt targetLength (RuneCountInString s)).toNat = 0 := by omega
    rw [this]
    simp
  · simp only [String.toList, String.data_append]
    exact congrArg (s.data ++ ·) (Repeat_singleton_toList c _)

/-- The value of `padding` when the subtraction does not wrap around: for a target
length that is not negative, or one that is at most `2^63` below the length of `s`. -/
theorem padding_toNat (s : String) (targetLength : Int) (hhi : targetLength < 2 ^ 63)
    (hlo : 0 ≤ targetLength ∨ -(2 ^ 63) ≤ targetLength - (s.length : Int)) :
    (subInt targetLength (RuneCountInString s)).toNat
      = (targetLength - (s.length : Int)).toNat := by
  unfold subInt RuneCountInString
  omega

/-- The codepoints of a padded string, for a fill of one codepoint, when the subtraction
does not wrap around. -/
theorem pad_singleton_toList (s : String) (c : Char) (targetLength : Int)
    (hhi : targetLength < 2 ^ 63)
    (hlo : 0 ≤ targetLength ∨ -(2 ^ 63) ≤ targetLength - (s.length : Int)) :
    (pad s (String.singleton c) targetLength).toList
      = s.toList ++ List.replicate (targetLength - s.length).toNat c := by
  rw [pad_singleton_toList_padding, padding_toNat s targetLength hhi hlo]

theorem insertionStep_perm {α : Type} (lt : α → α → Bool) (x : α) (rev : List α) :
    (insertionStep lt x rev).Perm (x :: rev) := by
  induction rev with
  | nil => exact List.Perm.refl _
  | cons y rev ih =>
    simp only [insertionStep]
    split
    · exact ((List.Perm.cons y ih).trans (List.Perm.swap x y rev))
    · exact List.Perm.refl _

theorem foldl_insertionStep_perm {α : Type} (lt : α → α → Bool) (data rev : List α) :
    (data.foldl (fun rev x => insertionStep lt x rev) rev).Perm (data.reverse ++ rev) := by
  induction data generalizing rev with
  | nil => exact List.Perm.refl _
  | cons x data ih =>
    simp only [List.foldl_cons, List.reverse_cons, List.append_assoc, List.singleton_append]
    exact (ih _).trans (List.Perm.append_left _ (insertionStep_perm lt x rev))

/-- The insertion sort returns a rearrangement of its input. -/
theorem insertionSort_perm {α : Type} (data : List α) (lt : α → α → Bool) :
    (insertionSort data lt).Perm data := by
  unfold insertionSort
  refine (List.reverse_perm _).trans ?_
  have := foldl_insertionStep_perm lt data []
  rw [List.append_nil] at this
  exact this.trans (List.reverse_perm _)

theorem insertionSort_func_perm {α : Type} (lt : α → α → Bool) (data : List α) (a b : Nat) :
    (insertionSort_func lt data a b).Perm data := by
  unfold insertionSort_func
  have h : data = data.take a ++ (data.drop a).take (b - a) ++ (data.drop a).drop (b - a) := by
    rw [List.append_assoc, List.take_append_drop, List.take_append_drop]
  conv_rhs => rw [h]
  exact List.Perm.append_right _ (List.Perm.append_left _ (insertionSort_perm _ lt))

theorem swapAt_perm {α : Type} [DecidableEq α] (data : List α) (i j : Nat) :
    (swapAt data i j).Perm data := by
  unfold swapAt
  split
  · rename_i x y hx hy
    obtain ⟨hi, hxi⟩ := List.getElem?_eq_some_iff.mp hx
    obtain ⟨hj, hyj⟩ := List.getElem?_eq_some_iff.mp hy
    rw [List.perm_iff_count]
    intro c
    have hj' : j < (data.set i y).length := by simpa using hj
    have hget : (data.set i y)[j] = y := by
      rw [List.getElem_set]
      split
      · rfl
      · exact hyj
    rw [List.count_set _ _ _ _ hj', List.count_set _ _ _ _ hi, hget, hxi]
    have hpos : x = c → 0 < data.count c := by
      intro h
      rw [List.count_pos_iff]
      rw [← h, ← hxi]
      exact List.getElem_mem _
    have hx1 : x = c → data.count c - 1 + 1 = data.count c := fun h => by
      have := hpos h
      omega
    by_cases h1 : x = c <;> by_cases h2 : y = c <;> simp [h1, h2]
    · exact hx1 h1
    · exact hx1 h1
  · exact List.Perm.refl _

theorem foldl_perm {α β : Type} (f : List α → β → List α) (hf : ∀ d i, (f d i).Perm d)
    (l : List β) (d : List α) : (l.foldl f d).Perm d := by
  induction l generalizing d with
  | nil => exact List.Perm.refl _
  | cons i l ih => exact (ih _).trans (hf d i)

theorem siftDown_func_perm {α : Type} [DecidableEq α] (lt : α → α → Bool) (fuel : Nat)
    (data : List α) (root hi first : Nat) :
    (siftDown_func lt fuel data root hi first).Perm data := by
  induction fuel generalizing data root with
  | zero => exact List.Perm.refl _
  | succ fuel ih =>
    simp only [siftDown_func]
    split_ifs
    all_goals first
      | exact List.Perm.refl _
      | exact (ih _ _).trans (swapAt_perm _ _ _)

theorem heapSort_func_perm {α : Type} [DecidableEq α] (lt : α → α → Bool) (data : List α)
    (a b : Nat) : (heapSort_func lt data a b).Perm data := by
  unfold heapSort_func
  refine (foldl_perm _ ?_ _ _).trans (foldl_perm _ ?_ _ _)
  · intro d i
    exact (siftDown_func_perm lt _ _ _ _ _).trans (swapAt_perm _ _ _)
  · intro d i
    exact siftDown_func_perm lt _ _ _ _ _

theorem partitionLoop_perm {α : Type} [DecidableEq α] (lt : α → α → Bool) (a fuel : Nat)
    (data : List α) (i j : Nat) : (partitionLoop lt a fuel data i j).1.Perm data := by
  induction fuel generalizing data i j with
  | zero => exact List.Perm.refl _
  | succ fuel ih =>
    simp only [partitionLoop]
    split_ifs
    · exact List.Perm.refl _
    · exact (ih _ _ _).trans (swapAt_perm _ _ _)

theorem partition_func_perm {α : Type} [DecidableEq α] (lt : α → α → Bool) (data : List α)
    (a b pivot : Nat) : (partition_func lt data a b pivot).1.Perm data := by
  simp only [partition_func]
  split_ifs
  · exact (swapAt_perm _ _ _).trans (swapAt_perm _ _ _)
  · exact (swapAt_perm _ _ _).trans
      ((partitionLoop_perm lt _ _ _ _ _).trans ((swapAt_perm _ _ _).trans (swapAt_perm _ _ _)))

theorem partitionEqualLoop_perm {α : Type} [DecidableEq α] (lt : α → α → Bool) (a fuel : Nat)
    (data : List α) (i j : Nat) : (partitionEqualLoop lt a fuel data i j).1.Perm data := by
  induction fuel generalizing data i j with
  | zero => exact List.Perm.refl _
  | succ fuel ih =>
    simp only [partitionEqualLoop]
    split_ifs
    · exact List.Perm.refl _
    · exact (ih _ _ _).trans (swapAt_perm _ _ _)

theorem partitionEqual_func_perm {α : Type} [DecidableEq α] (lt : α → α → Bool)
    (data : List α) (a b pivot : Nat) : (partitionEqual_func lt data a b pivot).1.Perm data :=
  (partitionEqualLoop_perm lt _ _ _ _ _).trans (swapAt_perm _ _ _)

theorem shiftSmaller_perm {α : Type} [DecidableEq α] (lt : α → α → Bool) (fuel : Nat)
    (data : List α) (j : Nat) : (shiftSmaller lt fuel data j).Perm data := by
  induction fuel generalizing data j with
  | zero => exact List.Perm.refl _
  | succ fuel ih =>
    simp only [shiftSmaller]
    split_ifs
    all_goals first
      | exact List.Perm.refl _
      | exact (ih _ _).trans (swapAt_perm _ _ _)

theorem shiftGreater_perm {α : Type} [DecidableEq α] (lt : α → α → Bool) (b fuel : Nat)
    (data : List α) (j : Nat) : (shiftGreater lt b fuel data j).Perm data := by
  induction fuel generalizing data j with
  | zero => exact List.Perm.refl _
  | succ fuel ih =>
    simp only [shiftGreater]
    split_ifs
    all_goals first
      | exact List.Perm.refl _
      | exact (ih _ _).trans (swapAt_perm _ _ _)

theorem partialInsertionSortLoop_perm {α : Type} [DecidableEq α] (lt : α → α → Bool)
    (a b steps : Nat) (data : List α) (i : Nat) :
    (partialInsertionSortLoop lt a b steps data i).1.Perm data := by
  induction steps generalizing data i with
  | zero => exact List.Perm.refl _
  | succ steps ih =>
    simp only [partialInsertionSortLoop]
    split_ifs
    all_goals first
      | exact List.Perm.refl _
      | exact (ih _ _).trans (swapAt_perm _ _ _)
      | exact (ih _ _).trans ((shiftGreater_perm lt _ _ _ _).trans (swapAt_perm _ _ _))
      | exact (ih _ _).trans ((shiftSmaller_perm lt _ _ _).trans (swapAt_perm _ _ _))
      | exact (ih _ _).trans ((shiftGreater_perm lt _ _ _ _).trans
          ((shiftSmaller_perm lt _ _ _).trans (swapAt_perm _ _ _)))

theorem breakPatterns_func_perm {α : Type} [DecidableEq α] (data : List α) (a b : Nat) :
    (breakPatterns_func data a b).Perm data := by
  unfold breakPatterns_func
  simp only []
  split
  · exact (swapAt_perm _ _ _).trans ((swapAt_perm _ _ _).trans (swapAt_perm _ _ _))
  · exact List.Perm.refl _

theorem reverseRangeLoop_perm {α : Type} [DecidableEq α] (fuel : Nat) (data : List α)
    (i j : Nat) : (reverseRangeLoop fuel data i j).Perm data := by
  induction fuel generalizing data i j with
  | zero => exact List.Perm.refl _
  | succ fuel ih =>
    simp only [reverseRangeLoop]
    split_ifs
    · exact (ih _ _ _).trans (swapAt_perm _ _ _)
    · exact List.Perm.refl _

theorem pdqsortRound_perm {α : Type} [DecidableEq α] (lt : α → α → Bool) (data : List α)
    (a b limit : Nat) (wasBalanced wasPartitioned : Bool) :
    (pdqsortRound lt data a b limit wasBalanced wasPartitioned).1.Perm data := by
  simp only [pdqsortRound]
  have h1 : (if wasBalanced = false then breakPatterns_func data a b else data).Perm data := by
    split_ifs
    · exact breakPatterns_func_perm _ _ _
    · exact List.Perm.refl _
  generalize (if wasBalanced = false then breakPatterns_func data a b else data) = d1 at h1 ⊢
  have h2 : (if (choosePivot_func lt d1 a b).2 = sortedHint.decreasingHint
      then reverseRange_func d1 a b else d1).Perm d1 := by
    split_ifs
    · exact reverseRangeLoop_perm _ _ _ _
    · exact List.Perm.refl _
  generalize (if (choosePivot_func lt d1 a b).2 = sortedHint.decreasingHint
      then reverseRange_func d1 a b else d1) = d2 at h2 ⊢
  split_ifs
  all_goals first
    | exact ((partialInsertionSortLoop_perm lt _ _ _ _ _).trans h2).trans h1
    | exact h2.trans h1

/-- The library's pdqsort returns a rearrangement of its input. -/
theorem pdqsort_func_perm {α : Type} [DecidableEq α] (lt : α → α → Bool) (fuel : Nat)
    (data : List α) (a b limit : Nat) (wasBalanced wasPartitioned : Bool) :
    (pdqsort_func lt fuel data a b limit wasBalanced wasPartitioned).Perm data := by
  induction fuel generalizing data a b limit wasBalanced wasPartitioned with
  | zero => exact List.Perm.refl _
  | succ fuel ih =>
    rw [pdqsort_func]
    split_ifs with h12 hlim
    · exact insertionSort_func_perm _ _ _ _
    · exact heapSort_func_perm _ _ _ _
    · have hr := pdqsortRound_perm lt data a b limit wasBalanced wasPartitioned
      split
      · rename_i d _ _ heq
        rw [heq] at hr
        exact hr
      · rename_i d pivot limit1 heq
        rw [heq] at hr
        split_ifs
        · have hp := partitionEqual_func_perm lt d a b pivot
          split
          rename_i d' mid heq'
          rw [heq'] at hp
          exact (ih _ _ _ _ _ _).trans (hp.trans hr)
        · have hp := partition_func_perm lt d a b pivot
          split
          rename_i d' mid ap heq'
          rw [heq'] at hp
          split_ifs
          · exact (ih _ _ _ _ _ _).trans ((ih _ _ _ _ _ _).trans (hp.trans hr))
          · exact (ih _ _ _ _ _ _).trans ((ih _ _ _ _ _ _).trans (hp.trans hr))

/-- The sort returns a rearrangement of its input. -/
theorem sortSlice_perm {α : Type} [DecidableEq α] (data : List α) (lt : α → α → Bool) :
    (sortSlice data lt).Perm data :=
  pdqsort_func_perm lt _ _ _ _ _ _ _

theorem insertionStep_sorted (x : Game) (rev : List Game)
    (h : rev.Pairwise (fun a b => a.PlaytimeForever ≤ b.PlaytimeForever)) :
    (insertionStep less x rev).Pairwise (fun a b => a.PlaytimeForever ≤ b.PlaytimeForever) := by
  induction rev with
  | nil => simp [insertionStep]
  | cons y rev ih =>
    rw [List.pairwise_cons] at h
    simp only [insertionStep]
    split
    · rename_i hlt
      have hxy : y.PlaytimeForever < x.PlaytimeForever := by
        simpa [less] using hlt
      rw [List.pairwise_cons]
      refine ⟨?_, ih h.2⟩
      intro z hz
      have hz' : z ∈ x :: rev := (insertionStep_perm less x rev).mem_iff.mp hz
      rcases List.mem_cons.mp hz' with hzx | hzr
      · rw [hzx]; omega
      · exact h.1 z hzr
    · rename_i hlt
      have hxy : x.PlaytimeForever ≤ y.PlaytimeForever := by
        simpa [less] using hlt
      rw [List.pairwise_cons, List.pairwise_cons]
      refine ⟨?_, h⟩
      intro z hz
      rcases List.mem_cons.mp hz with hzy | hzr
      · rw [hzy]; exact hxy
      · exact le_trans hxy (h.1 z hzr)

theorem foldl_insertionStep_sorted (data rev : List Game)
    (h : rev.Pairwise (fun a b => a.PlaytimeForever ≤ b.PlaytimeForever)) :
    (data.foldl (fun rev x => insertionStep less x rev) rev).Pairwise
      (fun a b => a.PlaytimeForever ≤ b.PlaytimeForever) := by
  induction data generalizing rev with
  | nil => exact h
  | cons x data ih => exact ih _ (insertionStep_sorted x rev h)

/-- The insertion sort leaves the games in descending order of `PlaytimeForever`. -/
theorem insertionSort_sorted (data : List Game) :
    (insertionSort data less).Pairwise
      (fun a b => a.PlaytimeForever ≥ b.PlaytimeForever) := by
  unfold insertionSort
  rw [List.pairwise_reverse]
  exact foldl_insertionStep_sorted data [] List.Pairwise.nil

/-! ## The sort sorts: swaps and scans -/

theorem length_swapAt {α : Type} (d : List α) (i j : Nat) : (swapAt d i j).length = d.length := by
  unfold swapAt
  split
  · simp
  · rfl

theorem swapAt_of_ge {α : Type} (d : List α) (i j : Nat) (h : d.length ≤ i ∨ d.length ≤ j) :
    swapAt d i j = d := by
  unfold swapAt
  split
  · rename_i x y hx hy
    have hi := (List.getElem?_eq_some_iff.mp hx).1
    have hj := (List.getElem?_eq_some_iff.mp hy).1
    omega
  · rfl

theorem swapAt_getElem {α : Type} (d : List α) (i j k : Nat) (hi : i < d.length)
    (hj : j < d.length) :
    (swapAt d i j)[k]? = if k = j then d[i]? else if k = i then d[j]? else d[k]? := by
  unfold swapAt
  have hx : d[i]? = some d[i] := List.getElem?_eq_getElem hi
  have hy : d[j]? = some d[j] := List.getElem?_eq_getElem hj
  rw [hx, hy]
  simp only []
  rw [List.getElem?_set, List.getElem?_set]
  by_cases h1 : k = j
  · subst h1
    simp [hi, hj]
  · by_cases h2 : k = i
    · subst h2
      have : ¬ j = k := fun h => h1 h.symm
      simp [this, h1, hi, hj]
    · have h1' : ¬ j = k := fun h => h1 h.symm
      have h2' : ¬ i = k := fun h => h2 h.symm
      simp [h1, h2, h1', h2']

theorem keyAt_swapAt (d : List Game) (i j k : Nat) (hi : i < d.length) (hj : j < d.length) :
    keyAt (swapAt d i j) k
      = if k = j then keyAt d i else if k = i then keyAt d j else keyAt d k := by
  unfold keyAt
  rw [swapAt_getElem d i j k hi hj]
  split_ifs <;> rfl

/-- With the comparison of `GetPlayTime`, `data.Less(i, j)` holds when the key at `i` is the
larger one. -/
theorem lessAt_iff (d : List Game) (i j : Nat) (hi : i < d.length) (hj : j < d.length) :
    lessAt less d i j = true ↔ keyAt d j < keyAt d i := by
  unfold lessAt keyAt
  rw [List.getElem?_eq_getElem hi, List.getElem?_eq_getElem hj]
  simp [less]

theorem lessAt_false_iff (d : List Game) (i j : Nat) (hi : i < d.length) (hj : j < d.length) :
    lessAt less d i j = false ↔ keyAt d i ≤ keyAt d j := by
  rw [← Bool.not_eq_true, lessAt_iff d i j hi hj]
  omega

theorem Frame.refl (d : List Game) (a b : Nat) : Frame d d a b :=
  ⟨rfl, fun _ _ => rfl, fun k hk hk' => ⟨k, hk, hk', rfl⟩⟩

theorem Frame.trans {d d' d'' : List Game} {a b : Nat} (h : Frame d d' a b)
    (h' : Frame d' d'' a b) : Frame d d'' a b := by
  refine ⟨h'.1.trans h.1, fun k hk => (h'.2.1 k hk).trans (h.2.1 k hk), ?_⟩
  intro k hk hk'
  obtain ⟨m, hm, hm', e⟩ := h'.2.2 k hk hk'
  obtain ⟨m2, hm2, hm2', e2⟩ := h.2.2 m hm hm'
  exact ⟨m2, hm2, hm2', e.trans e2⟩

/-- Moves inside a part of `[a, b)` are moves inside `[a, b)`. -/
theorem Frame.mono {d d' : List Game} {a b a' b' : Nat} (h : Frame d d' a' b')
    (ha : a ≤ a') (hb : b' ≤ b) : Frame d d' a b := by
  refine ⟨h.1, fun k hk => h.2.1 k (by omega), ?_⟩
  intro k hk hk'
  by_cases hin : a' ≤ k ∧ k < b'
  · obtain ⟨m, hm, hm', e⟩ := h.2.2 k hin.1 hin.2
    exact ⟨m, by omega, by omega, e⟩
  · exact ⟨k, hk, hk', h.2.1 k (by omega)⟩

theorem Frame.of_swapAt (d : List Game) (a b i j : Nat) (hi : a ≤ i ∧ i < b)
    (hj : a ≤ j ∧ j < b) : Frame d (swapAt d i j) a b := by
  by_cases hlen : i < d.length ∧ j < d.length
  · refine ⟨length_swapAt d i j, ?_, ?_⟩
    · intro k hk
      rw [keyAt_swapAt d i j k hlen.1 hlen.2, if_neg (by omega), if_neg (by omega)]
    · intro k hk hk'
      rw [keyAt_swapAt d i j k hlen.1 hlen.2]
      split_ifs
      · exact ⟨i, hi.1, hi.2, rfl⟩
      · exact ⟨j, hj.1, hj.2, rfl⟩
      · exact ⟨k, hk, hk', rfl⟩
  · rw [swapAt_of_ge d i j (by omega)]
    exact Frame.refl d a b

/-- A bound on the keys inside `[a, b)` is kept by moves inside `[a, b)`. -/
theorem Frame.bound {d d' : List Game} {a b : Nat} (h : Frame d d' a b) (P : Int → Prop)
    (hP : ∀ k, a ≤ k → k < b → P (keyAt d k)) : ∀ k, a ≤ k → k < b → P (keyAt d' k) := by
  intro k hk hk'
  obtain ⟨m, hm, hm', e⟩ := h.2.2 k hk hk'
  rw [e]
  exact hP m hm hm'

/-- The loop `for i < b && cond(i) { i++ }` ends at the first index from `i` on that is `b`
or fails `cond`. -/
theorem scanUp_spec (cond : Nat → Bool) (fuel i b : Nat) (hf : b - i ≤ fuel) :
    i ≤ scanUp cond fuel i b ∧ (i ≤ b → scanUp cond fuel i b ≤ b)
    ∧ (∀ k, i ≤ k → k < scanUp cond fuel i b → cond k = true)
    ∧ (scanUp cond fuel i b < b → cond (scanUp cond fuel i b) = false) := by
  induction fuel generalizing i with
  | zero =>
    simp only [scanUp]
    exact ⟨le_refl _, fun h => h, fun k h1 h2 => by omega, fun h => by omega⟩
  | succ fuel ih =>
    simp only [scanUp]
    split_ifs with h
    · obtain ⟨h1, h2, h3, h4⟩ := ih (i + 1) (by omega)
      refine ⟨by omega, fun _ => h2 (by omega), ?_, h4⟩
      intro k hk hk'
      by_cases hki : k = i
      · rw [hki]; exact h.2
      · exact h3 k (by omega) hk'
    · refine ⟨le_refl _, fun h => h, fun k h1 h2 => by omega, ?_⟩
      intro hlt
      by_contra hc
      exact h ⟨hlt, by simpa using hc⟩

/-- The loop `for i <= j && cond(j) { j-- }` ends at the first index from `j` down that is
`i - 1` or fails `cond`. -/
theorem scanDown_spec (cond : Nat → Bool) (fuel i j : Nat) (hf : j + 1 - i ≤ fuel)
    (hi : 1 ≤ i) :
    scanDown cond fuel i j ≤ j ∧ (i ≤ j + 1 → i ≤ scanDown cond fuel i j + 1)
    ∧ (∀ k, scanDown cond fuel i j < k → k ≤ j → cond k = true)
    ∧ (i ≤ scanDown cond fuel i j → cond (scanDown cond fuel i j) = false) := by
  induction fuel generalizing j with
  | zero =>
    simp only [scanDown]
    exact ⟨le_refl _, fun h => by omega, fun k h1 h2 => by omega, fun h => by omega⟩
  | succ fuel ih =>
    simp only [scanDown]
    split_ifs with h
    · obtain ⟨h1, h2, h3, h4⟩ := ih (j - 1) (by omega)
      refine ⟨by omega, fun _ => h2 (by omega), ?_, h4⟩
      intro k hk hk'
      by_cases hkj : k = j
      · rw [hkj]; exact h.2
      · exact h3 k hk (by omega)
    · refine ⟨le_refl _, fun h => by omega, fun k h1 h2 => by omega, ?_⟩
      intro hle
      by_contra hc
      exact h ⟨hle, by simpa using hc⟩

theorem keyAt_swapAt_left (d : List Game) (i j : Nat) (hi : i < d.length)
    (hj : j < d.length) : keyAt (swapAt d i j) i = keyAt d j := by
  rw [keyAt_swapAt d i j i hi hj]
  by_cases h : i = j
  · rw [if_pos h, h]
  · rw [if_neg h, if_pos rfl]

theorem keyAt_swapAt_right (d : List Game) (i j : Nat) (hi : i < d.length)
    (hj : j < d.length) : keyAt (swapAt d i j) j = keyAt d i := by
  rw [keyAt_swapAt d i j j hi hj, if_pos rfl]

theorem keyAt_swapAt_ne (d : List Game) (i j k : Nat) (hki : k ≠ i) (hkj : k ≠ j) :
    keyAt (swapAt d i j) k = keyAt d k := by
  by_cases h : i < d.length ∧ j < d.length
  · rw [keyAt_swapAt d i j k h.1 h.2, if_neg hkj, if_neg hki]
  · rw [swapAt_of_ge d i j (by omega)]

theorem swapAt_of_eq {α : Type} (d : List α) (i : Nat) : swapAt d i i = d := by
  unfold swapAt
  split
  · rename_i x y hx hy
    rw [hx] at hy
    cases hy
    rw [List.set_set]
    apply List.ext_getElem?
    intro k
    rw [List.getElem?_set]
    split_ifs with h1 h2
    · rw [← h1, hx]
    · rw [← h1]
      rw [List.getElem?_eq_none (by omega)] at hx
      cases hx
    · rfl
  · rfl

/-! ## The sort sorts: insertion sort -/

theorem keyAt_of_some (d : List Game) (i : Nat) (g : Game) (h : d[i]? = some g) :
    keyAt d i = g.PlaytimeForever := by
  unfold keyAt
  rw [h]

/-- The library's `insertionSort_func(data, a, b)` moves elements inside `[a, b)` only and
leaves `data[a:b]` in descending order of the keys. -/
theorem insertionSort_func_sorts (d : List Game) (a b : Nat) (hab : a ≤ b)
    (hb : b ≤ d.length) :
    Frame d (insertionSort_func less d a b) a b
    ∧ SortedOn (insertionSort_func less d a b) a b := by
  have hs := insertionSort_sorted ((d.drop a).take (b - a))
  have hp := insertionSort_perm ((d.drop a).take (b - a)) less
  have hlen : (insertionSort ((d.drop a).take (b - a)) less).length = b - a := by
    rw [hp.length_eq, List.length_take, List.length_drop]
    omega
  have hta : (d.take a).length = a := by
    rw [List.length_take]; omega
  have hin : ∀ k, a ≤ k → k < b →
      (insertionSort_func less d a b)[k]?
        = (insertionSort ((d.drop a).take (b - a)) less)[k - a]? := by
    intro k hk hk'
    unfold insertionSort_func
    rw [List.getElem?_append_left (by rw [List.length_append, hta, hlen]; omega),
      List.getElem?_append_right (by rw [hta]; exact hk), hta]
  have hout : ∀ k, k < a ∨ b ≤ k → (insertionSort_func less d a b)[k]? = d[k]? := by
    intro k hk
    unfold insertionSort_func
    rcases hk with hk | hk
    · rw [List.append_assoc, List.getElem?_append_left (by rw [hta]; exact hk),
        List.getElem?_take_of_lt hk]
    · rw [List.getElem?_append_right (by rw [List.length_append, hta, hlen]; omega),
        List.length_append, hta, hlen, List.getElem?_drop, List.getElem?_drop]
      congr 1
      omega
  refine ⟨⟨?_, ?_, ?_⟩, ?_⟩
  · unfold insertionSort_func
    rw [List.length_append, List.length_append, hta, hlen, List.length_drop, List.length_drop]
    omega
  · intro k hk
    unfold keyAt
    rw [hout k hk]
  · intro k hk hk'
    have hlt : k - a < (insertionSort ((d.drop a).take (b - a)) less).length := by
      rw [hlen]; omega
    have hmem : (insertionSort ((d.drop a).take (b - a)) less)[k - a]
        ∈ (d.drop a).take (b - a) := hp.subset (List.getElem_mem hlt)
    obtain ⟨m, hm, e⟩ := List.getElem_of_mem hmem
    rw [List.length_take, List.length_drop] at hm
    refine ⟨a + m, by omega, by omega, ?_⟩
    have e1 : ((d.drop a).take (b - a))[m]? = d[a + m]? := by
      rw [List.getElem?_take_of_lt (by omega), List.getElem?_drop]
    have e2 : d[a + m]? = some (insertionSort ((d.drop a).take (b - a)) less)[k - a] := by
      rw [← e1, List.getElem?_eq_getElem (by rw [List.length_take, List.length_drop]; omega), e]
    rw [keyAt_of_some _ k _ ((hin k hk hk').trans (List.getElem?_eq_getElem hlt)),
      keyAt_of_some _ _ _ e2]
  · intro i j hi hij hj
    have hlti : i - a < (insertionSort ((d.drop a).take (b - a)) less).length := by
      rw [hlen]; omega
    have hltj : j - a < (insertionSort ((d.drop a).take (b - a)) less).length := by
      rw [hlen]; omega
    rw [keyAt_of_some _ i _ ((hin i hi (by omega)).trans (List.getElem?_eq_getElem hlti)),
      keyAt_of_some _ j _ ((hin j (by omega) hj).trans (List.getElem?_eq_getElem hltj))]
    exact (List.pairwise_iff_getElem.mp hs) (i - a) (j - a) hlti hltj (by omega)

/-! ## The sort sorts: the partitions -/

/-- The loop of `partition_func`: the keys left of `i` are larger than the pivot's, the keys
right of `j` are not, and the loop ends with `j` at the border. -/
theorem partitionLoop_spec (a b : Nat) (p : Int) (fuel : Nat) :
    ∀ (d : List Game) (i j : Nat), j + 1 - i < fuel → a < i → j < b → i ≤ j + 1 →
      b ≤ d.length → keyAt d a = p →
      (∀ k, a < k → k < i → p < keyAt d k) →
      (∀ k, j < k → k < b → keyAt d k ≤ p) →
      Frame d (partitionLoop less a fuel d i j).1 (a + 1) b
      ∧ a ≤ (partitionLoop less a fuel d i j).2 ∧ (partitionLoop less a fuel d i j).2 < b
      ∧ (∀ k, a < k → k ≤ (partitionLoop less a fuel d i j).2 →
          p < keyAt (partitionLoop less a fuel d i j).1 k)
      ∧ (∀ k, (partitionLoop less a fuel d i j).2 < k → k < b →
          keyAt (partitionLoop less a fuel d i j).1 k ≤ p) := by
  induction fuel with
  | zero => intro d i j hf; omega
  | succ fuel ih =>
    intro d i j hf hai hjb hij hlen hp hlo hhi
    have hs := scanUp_spec (fun i => lessAt less d i a) (j + 1 - i) i (j + 1) (le_refl _)
    simp only [partitionLoop]
    generalize scanUp (fun i => lessAt less d i a) (j + 1 - i) i (j + 1) = i' at hs ⊢
    obtain ⟨hs1, hs2, hs3, hs4⟩ := hs
    have hs2 := hs2 hij
    have ht := scanDown_spec (fun j => !lessAt less d j a) (j + 1 - i') i' j (le_refl _)
      (by omega)
    generalize scanDown (fun j => !lessAt less d j a) (j + 1 - i') i' j = j' at ht ⊢
    obtain ⟨ht1, ht2, ht3, ht4⟩ := ht
    have ht2 := ht2 hs2
    have hlow : ∀ k, a < k → k < i' → p < keyAt d k := by
      intro k hk hk'
      by_cases hki : k < i
      · exact hlo k hk hki
      · have := hs3 k (by omega) hk'
        rw [lessAt_iff d k a (by omega) (by omega), hp] at this
        exact this
    have hhigh : ∀ k, j' < k → k < b → keyAt d k ≤ p := by
      intro k hk hk'
      by_cases hkj : j < k
      · exact hhi k hkj hk'
      · have := ht3 k hk (by omega)
        simp only [Bool.not_eq_true'] at this
        rw [lessAt_false_iff d k a (by omega) (by omega), hp] at this
        exact this
    split_ifs with hgt
    · exact ⟨Frame.refl _ _ _, by omega, by omega,
        fun k hk hk' => hlow k hk (by omega), hhigh⟩
    · have hi' : keyAt d i' ≤ p := by
        have := hs4 (by omega)
        rw [lessAt_false_iff d i' a (by omega) (by omega), hp] at this
        exact this
      have hj' : p < keyAt d j' := by
        have := ht4 (by omega)
        simp only [Bool.not_eq_false'] at this
        rw [lessAt_iff d j' a (by omega) (by omega), hp] at this
        exact this
      have hne : i' ≠ j' := by
        intro h
        rw [h] at hi'
        omega
      have hk := keyAt_swapAt d i' j'
      obtain ⟨r1, r2, r3, r4, r5⟩ := ih (swapAt d i' j') (i' + 1) (j' - 1) (by omega)
        (by omega) (by omega) (by omega) (by rw [length_swapAt]; exact hlen)
        (by rw [hk a (by omega) (by omega), if_neg (by omega), if_neg (by omega)]; exact hp)
        (by
          intro k h1 h2
          rw [hk k (by omega) (by omega), if_neg (by omega)]
          split_ifs with h3
          · exact hj'
          · exact hlow k h1 (by omega))
        (by
          intro k h1 h2
          rw [hk k (by omega) (by omega)]
          split_ifs with h3 h4
          · exact hi'
          · omega
          · exact hhigh k (by omega) h2)
      exact ⟨(Frame.of_swapAt d (a + 1) b i' j' (by omega) (by omega)).trans r1, r2, r3, r4, r5⟩

/-- The library's `partition_func(data, a, b, pivot)` returns `mid` in `[a, b)` with the
larger keys before `mid` and the others behind it. -/
theorem partition_func_spec (d : List Game) (a b pivot : Nat) (hab : a < b)
    (hlen : b ≤ d.length) (hpa : a ≤ pivot) (hpb : pivot < b) :
    Frame d (partition_func less d a b pivot).1 a b
    ∧ a ≤ (partition_func less d a b pivot).2.1 ∧ (partition_func less d a b pivot).2.1 < b
    ∧ (∀ k, a ≤ k → k < (partition_func less d a b pivot).2.1 →
        keyAt (partition_func less d a b pivot).1 (partition_func less d a b pivot).2.1
          < keyAt (partition_func less d a b pivot).1 k)
    ∧ (∀ k, (partition_func less d a b pivot).2.1 < k → k < b →
        keyAt (partition_func less d a b pivot).1 k
          ≤ keyAt (partition_func less d a b pivot).1 (partition_func less d a b pivot).2.1) := by
  have hf0 : Frame d (swapAt d a pivot) a b := Frame.of_swapAt d a b a pivot (by omega) (by omega)
  have hlen0 : b ≤ (swapAt d a pivot).length := by rw [length_swapAt]; exact hlen
  simp only [partition_func]
  generalize swapAt d a pivot = d0 at hf0 hlen0 ⊢
  have hs := scanUp_spec (fun i => lessAt less d0 i a) (b - a) (a + 1) b (by omega)
  generalize scanUp (fun i => lessAt less d0 i a) (b - a) (a + 1) b = i at hs ⊢
  obtain ⟨hs1, hs2, hs3, hs4⟩ := hs
  have hs2 := hs2 (by omega)
  have ht := scanDown_spec (fun j => !lessAt less d0 j a) (b - a) i (b - 1) (by omega)
    (by omega)
  generalize scanDown (fun j => !lessAt less d0 j a) (b - a) i (b - 1) = j at ht ⊢
  obtain ⟨ht1, ht2, ht3, ht4⟩ := ht
  have ht2 := ht2 (by omega)
  have hlow : ∀ k, a < k → k < i → keyAt d0 a < keyAt d0 k := by
    intro k hk hk'
    have := hs3 k (by omega) hk'
    rw [lessAt_iff d0 k a (by omega) (by omega)] at this
    exact this
  have hhigh : ∀ k, j < k → k < b → keyAt d0 k ≤ keyAt d0 a := by
    intro k hk hk'
    have := ht3 k hk (by omega)
    simp only [Bool.not_eq_true'] at this
    rw [lessAt_false_iff d0 k a (by omega) (by omega)] at this
    exact this
  split_ifs with hgt
  · dsimp only
    refine ⟨hf0.trans (Frame.of_swapAt d0 a b j a (by omega) (by omega)), by omega, by omega,
      ?_, ?_⟩
    · intro k h1 h2
      rw [keyAt_swapAt_left d0 j a (by omega) (by omega)]
      by_cases hka : k = a
      · rw [hka, keyAt_swapAt_right d0 j a (by omega) (by omega)]
        exact hlow j (by omega) (by omega)
      · rw [keyAt_swapAt_ne d0 j a k (by omega) hka]
        exact hlow k (by omega) (by omega)
    · intro k h1 h2
      by_cases hja : j = a
      · rw [keyAt_swapAt_ne d0 j a k (by omega) (by omega), hja, swapAt_of_eq]
        exact hhigh k (by omega) h2
      · rw [keyAt_swapAt_left d0 j a (by omega) (by omega),
          keyAt_swapAt_ne d0 j a k (by omega) (by omega)]
        exact hhigh k h1 h2
  · have hi' : keyAt d0 i ≤ keyAt d0 a := by
      have := hs4 (by omega)
      rw [lessAt_false_iff d0 i a (by omega) (by omega)] at this
      exact this
    have hj' : keyAt d0 a < keyAt d0 j := by
      have := ht4 (by omega)
      simp only [Bool.not_eq_false'] at this
      rw [lessAt_iff d0 j a (by omega) (by omega)] at this
      exact this
    have hne : i ≠ j := by
      intro h
      rw [h] at hi'
      omega
    have hk := keyAt_swapAt d0 i j
    obtain ⟨r1, r2, r3, r4, r5⟩ := partitionLoop_spec a b (keyAt d0 a) (b - a)
      (swapAt d0 i j) (i + 1) (j - 1) (by omega)
      (by omega) (by omega) (by omega) (by rw [length_swapAt]; exact hlen0)
      (by rw [hk a (by omega) (by omega), if_neg (by omega), if_neg (by omega)])
      (by
        intro k h1 h2
        rw [hk k (by omega) (by omega), if_neg (by omega)]
        split_ifs with h3
        · exact hj'
        · exact hlow k h1 (by omega))
      (by
        intro k h1 h2
        rw [hk k (by omega) (by omega)]
        split_ifs with h3 h4
        · exact hi'
        · omega
        · exact hhigh k (by omega) h2)
    generalize partitionLoop less a (b - a) (swapAt d0 i j) (i + 1) (j - 1) = r at r1 r2 r3 r4 r5 ⊢
    have hfr : Frame d0 r.1 a b :=
      ((Frame.of_swapAt d0 (a + 1) b i j (by omega) (by omega)).trans r1).mono (by omega)
        (le_refl _)
    have hra : keyAt r.1 a = keyAt d0 a := by
      rw [r1.2.1 a (by omega), hk a (by omega) (by omega), if_neg (by omega),
        if_neg (by omega)]
    have hrlen : r.1.length = d0.length := hfr.1
    dsimp only
    refine ⟨hf0.trans (hfr.trans (Frame.of_swapAt r.1 a b r.2 a (by omega) (by omega))),
      r2, r3, ?_, ?_⟩
    · intro k h1 h2
      rw [keyAt_swapAt_left r.1 r.2 a (by omega) (by omega), hra]
      by_cases hka : k = a
      · rw [hka, keyAt_swapAt_right r.1 r.2 a (by omega) (by omega)]
        exact r4 r.2 (by omega) (le_refl _)
      · rw [keyAt_swapAt_ne r.1 r.2 a k (by omega) hka]
        exact r4 k (by omega) (by omega)
    · intro k h1 h2
      by_cases hja : r.2 = a
      · rw [keyAt_swapAt_ne r.1 r.2 a k (by omega) (by omega), hja, swapAt_of_eq, hra]
        exact r5 k (by omega) h2
      · rw [keyAt_swapAt_left r.1 r.2 a (by omega) (by omega),
          keyAt_swapAt_ne r.1 r.2 a k (by omega) (by omega), hra]
        exact r5 k h1 h2

/-- The loop of `partitionEqual_func`: the keys left of `i` are at least the pivot's, the
keys right of `j` are smaller. -/
theorem partitionEqualLoop_spec (a b : Nat) (p : Int) (fuel : Nat) :
    ∀ (d : List Game) (i j : Nat), j + 1 - i < fuel → a < i → j < b → i ≤ j + 1 →
      b ≤ d.length → keyAt d a = p →
      (∀ k, a < k → k < i → p ≤ keyAt d k) →
      (∀ k, j < k → k < b → keyAt d k < p) →
      Frame d (partitionEqualLoop less a fuel d i j).1 (a + 1) b
      ∧ a < (partitionEqualLoop less a fuel d i j).2
      ∧ (partitionEqualLoop less a fuel d i j).2 ≤ b
      ∧ (∀ k, a < k → k < (partitionEqualLoop less a fuel d i j).2 →
          p ≤ keyAt (partitionEqualLoop less a fuel d i j).1 k)
      ∧ (∀ k, (partitionEqualLoop less a fuel d i j).2 ≤ k → k < b →
          keyAt (partitionEqualLoop less a fuel d i j).1 k < p) := by
  induction fuel with
  | zero => intro d i j hf; omega
  | succ fuel ih =>
    intro d i j hf hai hjb hij hlen hp hlo hhi
    have hs := scanUp_spec (fun i => !lessAt less d a i) (j + 1 - i) i (j + 1) (le_refl _)
    simp only [partitionEqualLoop]
    generalize scanUp (fun i => !lessAt less d a i) (j + 1 - i) i (j + 1) = i' at hs ⊢
    obtain ⟨hs1, hs2, hs3, hs4⟩ := hs
    have hs2 := hs2 hij
    have ht := scanDown_spec (fun j => lessAt less d a j) (j + 1 - i') i' j (le_refl _)
      (by omega)
    generalize scanDown (fun j => lessAt less d a j) (j + 1 - i') i' j = j' at ht ⊢
    obtain ⟨ht1, ht2, ht3, ht4⟩ := ht
    have ht2 := ht2 hs2
    have hlow : ∀ k, a < k → k < i' → p ≤ keyAt d k := by
      intro k hk hk'
      by_cases hki : k < i
      · exact hlo k hk hki
      · have := hs3 k (by omega) hk'
        simp only [Bool.not_eq_true'] at this
        rw [lessAt_false_iff d a k (by omega) (by omega), hp] at this
        exact this
    have hhigh : ∀ k, j' < k → k < b → keyAt d k < p := by
      intro k hk hk'
      by_cases hkj : j < k
      · exact hhi k hkj hk'
      · have := ht3 k hk (by omega)
        rw [lessAt_iff d a k (by omega) (by omega), hp] at this
        exact this
    split_ifs with hgt
    · exact ⟨Frame.refl _ _ _, by dsimp only; omega, by dsimp only; omega,
        fun k hk hk' => hlow k hk hk', fun k hk hk' => hhigh k (by dsimp only at hk; omega) hk'⟩
    · have hi' : keyAt d i' < p := by
        have := hs4 (by omega)
        simp only [Bool.not_eq_false'] at this
        rw [lessAt_iff d a i' (by omega) (by omega), hp] at this
        exact this
      have hj' : p ≤ keyAt d j' := by
        have := ht4 (by omega)
        rw [lessAt_false_iff d a j' (by omega) (by omega), hp] at this
        exact this
      have hne : i' ≠ j' := by
        intro h
        rw [h] at hi'
        omega
      obtain ⟨r1, r2, r3, r4, r5⟩ := ih (swapAt d i' j') (i' + 1) (j' - 1) (by omega)
        (by omega) (by omega) (by omega) (by rw [length_swapAt]; exact hlen)
        (by rw [keyAt_swapAt_ne d i' j' a (by omega) (by omega)]; exact hp)
        (by
          intro k h1 h2
          by_cases h3 : k = i'
          · rw [h3, keyAt_swapAt_left d i' j' (by omega) (by omega)]
            exact hj'
          · rw [keyAt_swapAt_ne d i' j' k h3 (by omega)]
            exact hlow k h1 (by omega))
        (by
          intro k h1 h2
          by_cases h3 : k = j'
          · rw [h3, keyAt_swapAt_right d i' j' (by omega) (by omega)]
            exact hi'
          · rw [keyAt_swapAt_ne d i' j' k (by omega) h3]
            exact hhigh k (by omega) h2)
      exact ⟨(Frame.of_swapAt d (a + 1) b i' j' (by omega) (by omega)).trans r1, r2, r3, r4, r5⟩

/-- The library's `partitionEqual_func(data, a, b, pivot)` returns `mid` in `(a, b]` with the
keys that are at least the pivot's before `mid` and the smaller ones from `mid` on. -/
theorem partitionEqual_func_spec (d : List Game) (a b pivot : Nat) (hab : a < b)
    (hlen : b ≤ d.length) (hpa : a ≤ pivot) (hpb : pivot < b) :
    Frame d (partitionEqual_func less d a b pivot).1 a b
    ∧ a < (partitionEqual_func less d a b pivot).2
    ∧ (partitionEqual_func less d a b pivot).2 ≤ b
    ∧ (∀ k, a ≤ k → k < (partitionEqual_func less d a b pivot).2 →
        keyAt d pivot ≤ keyAt (partitionEqual_func less d a b pivot).1 k)
    ∧ (∀ k, (partitionEqual_func less d a b pivot).2 ≤ k → k < b →
        keyAt (partitionEqual_func less d a b pivot).1 k < keyAt d pivot) := by
  have hf0 : Frame d (swapAt d a pivot) a b := Frame.of_swapAt d a b a pivot (by omega) (by omega)
  have hlen0 : b ≤ (swapAt d a pivot).length := by rw [length_swapAt]; exact hlen
  have hp0 : keyAt (swapAt d a pivot) a = keyAt d pivot :=
    keyAt_swapAt_left d a pivot (by omega) (by omega)
  unfold partitionEqual_func
  generalize swapAt d a pivot = d0 at hf0 hlen0 hp0 ⊢
  obtain ⟨r1, r2, r3, r4, r5⟩ := partitionEqualLoop_spec a b (keyAt d pivot) (b - a) d0
    (a + 1) (b - 1) (by omega) (by omega) (by omega) (by omega) hlen0 hp0
    (fun k h1 h2 => by omega) (fun k h1 h2 => by omega)
  refine ⟨hf0.trans (r1.mono (by omega) (le_refl _)), r2, r3, ?_, r5⟩
  intro k h1 h2
  by_cases hka : k = a
  · rw [hka, r1.2.1 a (by omega), hp0]
  · exact r4 k (by omega) h2

/-! ## The sort sorts: the pivot and the pattern breaking -/

/-- The power of two of `nextPowerOfTwo(length)` is at most twice `length`. -/
theorem two_pow_bitLen_le (fuel a : Nat) (h : 1 ≤ a) : 2 ^ bitLen fuel a ≤ 2 * a := by
  induction fuel generalizing a with
  | zero => simp only [bitLen]; omega
  | succ fuel ih =>
    simp only [bitLen]
    rw [if_neg (by omega), pow_succ]
    by_cases h2 : 1 ≤ a / 2
    · have := ih (a / 2) h2
      omega
    · have h0 : a / 2 = 0 := by omega
      rw [h0]
      have : bitLen fuel 0 = 0 := by
        cases fuel with
        | zero => rfl
        | succ f => simp [bitLen]
      rw [this]
      omega

/-- The three swaps of `breakPatterns_func(data, a, b)` stay inside `[a, b)`. -/
theorem breakPatterns_func_frame (d : List Game) (a b : Nat) :
    Frame d (breakPatterns_func d a b) a b := by
  unfold breakPatterns_func
  simp only []
  split
  · rename_i h
    have hm := two_pow_bitLen_le (b - a) (b - a) (by omega)
    have hother : ∀ r : Nat,
        (if r % 2 ^ bitLen (b - a) (b - a) ≥ b - a then r % 2 ^ bitLen (b - a) (b - a) - (b - a)
          else r % 2 ^ bitLen (b - a) (b - a)) < b - a := by
      intro r
      have : r % 2 ^ bitLen (b - a) (b - a) < 2 ^ bitLen (b - a) (b - a) :=
        Nat.mod_lt _ (Nat.pow_pos (by omega))
      split_ifs with h1
      · omega
      · omega
    have hidx : a ≤ a + (b - a) / 4 * 2 - 1 ∧ a + (b - a) / 4 * 2 - 1 + 2 < b := by omega
    refine ((Frame.of_swapAt d a b _ _ ⟨hidx.1, by omega⟩ ⟨by omega, ?_⟩).trans
      (Frame.of_swapAt _ a b _ _ ⟨by omega, by omega⟩ ⟨by omega, ?_⟩)).trans
      (Frame.of_swapAt _ a b _ _ ⟨by omega, by omega⟩ ⟨by omega, ?_⟩)
    · have := hother (xorshiftNext (b - a))
      omega
    · have := hother (xorshiftNext (xorshiftNext (b - a)))
      omega
    · have := hother (xorshiftNext (xorshiftNext (xorshiftNext (b - a))))
      omega
  · exact Frame.refl _ _ _

theorem reverseRangeLoop_frame (a b fuel : Nat) :
    ∀ (d : List Game) (i j : Nat), a ≤ i → j < b →
      Frame d (reverseRangeLoop fuel d i j) a b := by
  induction fuel with
  | zero => intro d i j _ _; exact Frame.refl _ _ _
  | succ fuel ih =>
    intro d i j hi hj
    simp only [reverseRangeLoop]
    split_ifs with h
    · exact (Frame.of_swapAt d a b i j (by omega) (by omega)).trans
        (ih _ _ _ (by omega) (by omega))
    · exact Frame.refl _ _ _

theorem reverseRange_func_frame (d : List Game) (a b : Nat) (hab : a < b) :
    Frame d (reverseRange_func d a b) a b :=
  reverseRangeLoop_frame a b _ d a (b - 1) (le_refl _) (by omega)

theorem median_func_mem (d : List Game) (a b c swaps : Nat) :
    (median_func less d a b c swaps).1 = a ∨ (median_func less d a b c swaps).1 = b
    ∨ (median_func less d a b c swaps).1 = c := by
  unfold median_func order2_func
  simp only []
  split_ifs <;> simp

/-- The pivot chosen by `choosePivot_func(data, a, b)` lies in `[a, b)`. -/
theorem choosePivot_func_range (d : List Game) (a b : Nat) (h : 8 ≤ b - a) :
    a ≤ (choosePivot_func less d a b).1 ∧ (choosePivot_func less d a b).1 < b := by
  have key : ∀ r : Nat × Nat, (a ≤ r.1 ∧ r.1 < b) →
      a ≤ (if r.2 = 0 then (r.1, sortedHint.increasingHint)
        else if r.2 = 12 then (r.1, sortedHint.decreasingHint)
        else (r.1, sortedHint.unknownHint)).1
      ∧ (if r.2 = 0 then (r.1, sortedHint.increasingHint)
        else if r.2 = 12 then (r.1, sortedHint.decreasingHint)
        else (r.1, sortedHint.unknownHint)).1 < b := by
    intro r hr
    split_ifs <;> exact hr
  unfold choosePivot_func
  simp only []
  apply key
  rw [if_pos h]
  split_ifs with h50
  · have hi := median_func_mem d (a + (b - a) / 4 * 1 - 1) (a + (b - a) / 4 * 1)
      (a + (b - a) / 4 * 1 + 1) 0
    unfold medianAdjacent_func
    generalize median_func less d (a + (b - a) / 4 * 1 - 1) (a + (b - a) / 4 * 1)
      (a + (b - a) / 4 * 1 + 1) 0 = ri at hi ⊢
    have hj := median_func_mem d (a + (b - a) / 4 * 2 - 1) (a + (b - a) / 4 * 2)
      (a + (b - a) / 4 * 2 + 1) ri.2
    generalize median_func less d (a + (b - a) / 4 * 2 - 1) (a + (b - a) / 4 * 2)
      (a + (b - a) / 4 * 2 + 1) ri.2 = rj at hj ⊢
    have hk := median_func_mem d (a + (b - a) / 4 * 3 - 1) (a + (b - a) / 4 * 3)
      (a + (b - a) / 4 * 3 + 1) rj.2
    generalize median_func less d (a + (b - a) / 4 * 3 - 1) (a + (b - a) / 4 * 3)
      (a + (b - a) / 4 * 3 + 1) rj.2 = rk at hk ⊢
    have hm := median_func_mem d ri.1 rj.1 rk.1 rk.2
    omega
  · have hm := median_func_mem d (a + (b - a) / 4 * 1) (a + (b - a) / 4 * 2)
      (a + (b - a) / 4 * 3) 0
    omega

/-! ## The sort sorts: the partial insertion sort -/

/-- A range in which no element has a larger key than the one before it is in descending
order. -/
theorem SortedOn_of_adjacent (d : List Game) (a b : Nat)
    (h : ∀ k, a < k → k < b → keyAt d k ≤ keyAt d (k - 1)) : SortedOn d a b := by
  intro i j hi hij hj
  induction j with
  | zero => omega
  | succ j ih =>
    have h1 := h (j + 1) (by omega) hj
    rw [Nat.add_sub_cancel] at h1
    by_cases hji : i = j
    · rw [hji]; exact h1
    · exact le_trans h1 (ih (by omega) (by omega))

/-- A bound by the key before the range is kept by moves inside the range. -/
theorem Frame.bound_before {d d' : List Game} {a b : Nat} (h : Frame d d' a b)
    (hb : 0 < a → ∀ k, a ≤ k → k < b → keyAt d k ≤ keyAt d (a - 1)) :
    0 < a → ∀ k, a ≤ k → k < b → keyAt d' k ≤ keyAt d' (a - 1) := by
  intro ha k hk hk'
  rw [h.2.1 (a - 1) (by omega)]
  exact h.bound (fun x => x ≤ keyAt d (a - 1)) (hb ha) k hk hk'

/-- The first shifting loop of `partialInsertionSort_func`, started at `j`: it stays inside
`[a, T)` (no key in the range is larger than the key at `a - 1`) and leaves `[a, T)` in
order, when `j` was the one index out of order. -/
theorem shiftSmaller_spec (a T fuel : Nat) :
    ∀ (d : List Game) (j : Nat), j < fuel → a ≤ j → j < T → T ≤ d.length →
      (∀ k, a < k → k < T → k ≠ j → keyAt d k ≤ keyAt d (k - 1)) →
      (j + 1 < T → a < j → keyAt d (j + 1) ≤ keyAt d (j - 1)) →
      (0 < a → ∀ k, a ≤ k → k < T → keyAt d k ≤ keyAt d (a - 1)) →
      Frame d (shiftSmaller less fuel d j) a T
      ∧ ∀ k, a < k → k < T →
          keyAt (shiftSmaller less fuel d j) k ≤ keyAt (shiftSmaller less fuel d j) (k - 1) := by
  induction fuel with
  | zero => intro d j hf; omega
  | succ fuel ih =>
    intro d j hf haj hjT hlen hA hB hC
    simp only [shiftSmaller]
    split_ifs with h1 h2
    · refine ⟨Frame.refl _ _ _, ?_⟩
      intro k hk hk'
      by_cases hkj : k = j
      · rw [hkj]
        exact (lessAt_false_iff d j (j - 1) (by omega) (by omega)).mp h2
      · exact hA k hk hk' hkj
    · have hlt : keyAt d (j - 1) < keyAt d j := by
        rw [← lessAt_iff d j (j - 1) (by omega) (by omega)]
        simpa using h2
      have haj' : a < j := by
        by_contra hc
        have hja : j = a := by omega
        have := hC (by omega) a (le_refl _) (by omega)
        rw [hja] at hlt
        omega
      have hfr : Frame d (swapAt d j (j - 1)) a T :=
        Frame.of_swapAt d a T j (j - 1) (by omega) (by omega)
      have hl := keyAt_swapAt_left d j (j - 1) (by omega) (by omega)
      have hr := keyAt_swapAt_right d j (j - 1) (by omega) (by omega)
      obtain ⟨r1, r2⟩ := ih (swapAt d j (j - 1)) (j - 1) (by omega) (by omega) (by omega)
        (by rw [length_swapAt]; exact hlen)
        (by
          intro k hk hk' hkj
          by_cases e1 : k = j
          · rw [e1, hl, hr]; omega
          · by_cases e2 : k = j + 1
            · rw [e2, Nat.add_sub_cancel, hl,
                keyAt_swapAt_ne d j (j - 1) (j + 1) (by omega) (by omega)]
              exact hB (by omega) haj'
            · rw [keyAt_swapAt_ne d j (j - 1) k (by omega) (by omega),
                keyAt_swapAt_ne d j (j - 1) (k - 1) (by omega) (by omega)]
              exact hA k hk hk' e1)
        (by
          intro h3 h4
          have e : j - 1 + 1 = j := by omega
          rw [e, hl, keyAt_swapAt_ne d j (j - 1) (j - 1 - 1) (by omega) (by omega)]
          exact hA (j - 1) (by omega) (by omega) (by omega))
        (hfr.bound_before hC)
      exact ⟨hfr.trans r1, r2⟩
    · refine ⟨Frame.refl _ _ _, ?_⟩
      intro k hk hk'
      exact hA k hk hk' (by omega)

/-- The second shifting loop of `partialInsertionSort_func` moves elements from `j - 1` on
only. -/
theorem shiftGreater_frame (a b fuel : Nat) :
    ∀ (d : List Game) (j : Nat), a < j → Frame d (shiftGreater less b fuel d j) a b := by
  induction fuel with
  | zero => intro d j _; exact Frame.refl _ _ _
  | succ fuel ih =>
    intro d j hj
    simp only [shiftGreater]
    split_ifs with h1 h2
    · exact Frame.refl _ _ _
    · exact (Frame.of_swapAt d a b j (j - 1) (by omega) (by omega)).trans (ih _ _ (by omega))
    · exact Frame.refl _ _ _

/-- A run of the rounds of `partialInsertionSort_func` from `i`, with `data[a:i]` in order:
it moves elements inside `[a, b)` only, and when it returns `true` the range is in
order. -/
theorem partialInsertionSortLoop_spec (a b steps : Nat) :
    ∀ (d : List Game) (i : Nat), a < i → i ≤ b → b ≤ d.length →
      (∀ k, a < k → k < i → keyAt d k ≤ keyAt d (k - 1)) →
      (0 < a → ∀ k, a ≤ k → k < b → keyAt d k ≤ keyAt d (a - 1)) →
      Frame d (partialInsertionSortLoop less a b steps d i).1 a b
      ∧ ((partialInsertionSortLoop less a b steps d i).2 = true →
          SortedOn (partialInsertionSortLoop less a b steps d i).1 a b) := by
  induction steps with
  | zero =>
    intro d i _ _ _ _ _
    exact ⟨Frame.refl _ _ _, fun h => by simp [partialInsertionSortLoop] at h⟩
  | succ steps ih =>
    intro d i hai hib hlen hadj hC
    have hs := scanUp_spec (fun i => !lessAt less d i (i - 1)) (b - i) i b (le_refl _)
    simp only [partialInsertionSortLoop]
    generalize scanUp (fun i => !lessAt less d i (i - 1)) (b - i) i b = i' at hs ⊢
    obtain ⟨hs1, hs2, hs3, hs4⟩ := hs
    have hs2 := hs2 hib
    have hadj' : ∀ k, a < k → k < i' → keyAt d k ≤ keyAt d (k - 1) := by
      intro k hk hk'
      by_cases hki : k < i
      · exact hadj k hk hki
      · have := hs3 k (by omega) hk'
        simp only [Bool.not_eq_true'] at this
        exact (lessAt_false_iff d k (k - 1) (by omega) (by omega)).mp this
    by_cases h1 : i' = b
    · rw [if_pos h1]
      refine ⟨Frame.refl _ _ _, fun _ => ?_⟩
      rw [h1] at hadj'
      exact SortedOn_of_adjacent d a b hadj'
    rw [if_neg h1]
    by_cases h2 : b - a < 50
    · rw [if_pos h2]
      exact ⟨Frame.refl _ _ _, fun h => by simp at h⟩
    rw [if_neg h2]
    · have hf1 : Frame d (swapAt d i' (i' - 1)) a b :=
        Frame.of_swapAt d a b i' (i' - 1) (by omega) (by omega)
      have hlen1 : b ≤ (swapAt d i' (i' - 1)).length := by rw [length_swapAt]; exact hlen
      have hC1 := hf1.bound_before hC
      have hadj1 : ∀ k, a < k → k < i' → k ≠ i' - 1 →
          keyAt (swapAt d i' (i' - 1)) k ≤ keyAt (swapAt d i' (i' - 1)) (k - 1) := by
        intro k hk hk' hne
        rw [keyAt_swapAt_ne d i' (i' - 1) k (by omega) (by omega),
          keyAt_swapAt_ne d i' (i' - 1) (k - 1) (by omega) (by omega)]
        exact hadj' k hk hk'
      generalize swapAt d i' (i' - 1) = d1 at hf1 hlen1 hC1 hadj1 ⊢
      have h2spec : Frame d1 (if i' - a ≥ 2 then shiftSmaller less i' d1 (i' - 1) else d1) a b
          ∧ ∀ k, a < k → k < i' →
            keyAt (if i' - a ≥ 2 then shiftSmaller less i' d1 (i' - 1) else d1) k
              ≤ keyAt (if i' - a ≥ 2 then shiftSmaller less i' d1 (i' - 1) else d1) (k - 1) := by
        split_ifs with h3
        · obtain ⟨r1, r2⟩ := shiftSmaller_spec a i' i' d1 (i' - 1) (by omega) (by omega)
            (by omega) (by omega) hadj1 (fun h => by omega)
            (fun ha k hk hk' => hC1 ha k hk (by omega))
          exact ⟨r1.mono (le_refl _) (by omega), r2⟩
        · exact ⟨Frame.refl _ _ _, fun k hk hk' => by omega⟩
      generalize (if i' - a ≥ 2 then shiftSmaller less i' d1 (i' - 1) else d1) = d2 at h2spec ⊢
      obtain ⟨hf2, hadj2⟩ := h2spec
      have h3spec : Frame d2
          (if b - i' ≥ 2 then shiftGreater less b (b - i') d2 (i' + 1) else d2) i' b := by
        split_ifs with h3
        · exact shiftGreater_frame i' b _ d2 (i' + 1) (by omega)
        · exact Frame.refl _ _ _
      generalize (if b - i' ≥ 2 then shiftGreater less b (b - i') d2 (i' + 1) else d2) = d3
        at h3spec ⊢
      have hf3 : Frame d d3 a b := hf1.trans (hf2.trans (h3spec.mono (by omega) (le_refl _)))
      obtain ⟨r1, r2⟩ := ih d3 i' (by omega) (by omega) (by rw [hf3.1]; exact hlen)
        (by
          intro k hk hk'
          rw [h3spec.2.1 k (by omega), h3spec.2.1 (k - 1) (by omega)]
          exact hadj2 k hk hk')
        (hf3.bound_before hC)
      exact ⟨hf3.trans r1, r2⟩

theorem partialInsertionSort_func_spec (d : List Game) (a b : Nat) (hab : a < b)
    (hlen : b ≤ d.length)
    (hC : 0 < a → ∀ k, a ≤ k → k < b → keyAt d k ≤ keyAt d (a - 1)) :
    Frame d (partialInsertionSort_func less d a b).1 a b
    ∧ ((partialInsertionSort_func less d a b).2 = true →
        SortedOn (partialInsertionSort_func less d a b).1 a b) :=
  partialInsertionSortLoop_spec a b 5 d (a + 1) (by omega) (by omega) hlen
    (fun k hk hk' => by omega) hC

/-! ## The sort sorts: heap sort -/

/-- The library's `siftDown_func`, started at `root`: when the heap order holds at every
node from `lo` on but `root`, and between the parent and the children of `root`, it holds
at every node from `lo` on afterwards. -/
theorem siftDown_func_spec (first hi lo fuel : Nat) :
    ∀ (d : List Game) (root : Nat), hi - root ≤ fuel → lo ≤ root → first + hi ≤ d.length →
      (∀ r, lo ≤ r → r ≠ root → HeapAt d first hi r) →
      (∀ p c, lo ≤ p → (root = 2 * p + 1 ∨ root = 2 * p + 2) →
        (c = 2 * root + 1 ∨ c = 2 * root + 2) → c < hi →
        keyAt d (first + p) ≤ keyAt d (first + c)) →
      Frame d (siftDown_func less fuel d root hi first) first (first + hi)
      ∧ ∀ r, lo ≤ r → HeapAt (siftDown_func less fuel d root hi first) first hi r := by
  induction fuel with
  | zero =>
    intro d root hf hlo hlen hA hB
    refine ⟨Frame.refl _ _ _, ?_⟩
    intro r hr
    by_cases hrr : r = root
    · intro c hc hc'
      omega
    · exact hA r hr hrr
  | succ fuel ih =>
    intro d root hf hlo hlen hA hB
    simp only [siftDown_func]
    by_cases h1 : 2 * root + 1 ≥ hi
    · rw [if_pos h1]
      refine ⟨Frame.refl _ _ _, ?_⟩
      intro r hr
      by_cases hrr : r = root
      · intro c hc hc'
        omega
      · exact hA r hr hrr
    rw [if_neg h1]
    have hchild : ∃ child, child = (if 2 * root + 1 + 1 < hi
        ∧ lessAt less d (first + (2 * root + 1)) (first + (2 * root + 1) + 1) = true
        then 2 * root + 1 + 1 else 2 * root + 1)
        ∧ (child = 2 * root + 1 ∨ child = 2 * root + 2) ∧ child < hi
        ∧ ∀ c, (c = 2 * root + 1 ∨ c = 2 * root + 2) → c < hi →
          keyAt d (first + child) ≤ keyAt d (first + c) := by
      refine ⟨_, rfl, ?_⟩
      split_ifs with h2
      · have := (lessAt_iff d (first + (2 * root + 1)) (first + (2 * root + 1) + 1)
          (by omega) (by omega)).mp h2.2
        refine ⟨Or.inr rfl, h2.1, ?_⟩
        intro c hc hc'
        rcases hc with hc | hc
        · rw [hc]; exact le_of_lt this
        · rw [hc]
      · refine ⟨Or.inl rfl, by omega, ?_⟩
        intro c hc hc'
        rcases hc with hc | hc
        · rw [hc]
        · rw [hc]
          have h3 : lessAt less d (first + (2 * root + 1)) (first + (2 * root + 1) + 1)
              = false := by
            by_contra hcon
            exact h2 ⟨by omega, by simpa using hcon⟩
          exact (lessAt_false_iff d _ _ (by omega) (by omega)).mp h3
    obtain ⟨child, hce, hc1, hc2, hc3⟩ := hchild
    rw [← hce]
    by_cases h4 : lessAt less d (first + root) (first + child) = false
    · rw [if_pos h4]
      have h5 := (lessAt_false_iff d _ _ (by omega) (by omega)).mp h4
      refine ⟨Frame.refl _ _ _, ?_⟩
      intro r hr
      by_cases hrr : r = root
      · intro c hc hc'
        rw [hrr] at hc ⊢
        exact le_trans h5 (hc3 c hc hc')
      · exact hA r hr hrr
    rw [if_neg h4]
    have h5 : keyAt d (first + child) < keyAt d (first + root) := by
      rw [← lessAt_iff d _ _ (by omega) (by omega)]
      simpa using h4
    have hfr : Frame d (swapAt d (first + root) (first + child)) first (first + hi) :=
      Frame.of_swapAt d _ _ _ _ (by omega) (by omega)
    have hl := keyAt_swapAt_left d (first + root) (first + child) (by omega) (by omega)
    have hr := keyAt_swapAt_right d (first + root) (first + child) (by omega) (by omega)
    have hn := keyAt_swapAt_ne d (first + root) (first + child)
    obtain ⟨r1, r2⟩ := ih (swapAt d (first + root) (first + child)) child (by omega)
      (by omega) (by rw [length_swapAt]; exact hlen)
      (by
        intro r hlr hrc c hc hc'
        by_cases hrr : r = root
        · rw [hrr, hl]
          by_cases hcc : c = child
          · rw [hcc, hr]; exact le_of_lt h5
          · rw [hn (first + c) (by omega) (by omega)]
            exact hc3 c (by rw [hrr] at hc; exact hc) hc'
        · rw [hn (first + r) (by omega) (by omega)]
          by_cases hcr : c = root
          · rw [hcr, hl]
            exact hB r child hlr (by omega) hc1 hc2
          · rw [hn (first + c) (by omega) (by omega)]
            exact hA r hlr hrr c hc hc')
      (by
        intro p c hp hpc hc hc'
        have hpr : p = root := by omega
        rw [hpr, hl, hn (first + c) (by omega) (by omega)]
        exact hA child (by omega) (by omega) c hc hc')
    exact ⟨hfr.trans r1, r2⟩

theorem range_succ_reverse_foldl {β : Type} (f : β → Nat → β) (n : Nat) (x : β) :
    (List.range (n + 1)).reverse.foldl f x = (List.range n).reverse.foldl f (f x n) := by
  rw [List.range_succ, List.reverse_append]
  rfl

/-- The first loop of `heapSort_func`, from node `n - 1` down to 0, builds a heap. -/
theorem heapBuild_spec (first hi : Nat) (n : Nat) :
    ∀ (d : List Game), first + hi ≤ d.length → (∀ r, n ≤ r → HeapAt d first hi r) →
      Frame d ((List.range n).reverse.foldl
        (fun d i => siftDown_func less hi d i hi first) d) first (first + hi)
      ∧ ∀ r, HeapAt ((List.range n).reverse.foldl
        (fun d i => siftDown_func less hi d i hi first) d) first hi r := by
  induction n with
  | zero =>
    intro d _ h
    exact ⟨Frame.refl _ _ _, fun r => h r (Nat.zero_le _)⟩
  | succ n ih =>
    intro d hlen h
    rw [range_succ_reverse_foldl]
    obtain ⟨s1, s2⟩ := siftDown_func_spec first hi n hi d n (by omega) (le_refl _) hlen
      (fun r hr hne => h r (by omega)) (fun p c hp hpc => by omega)
    obtain ⟨r1, r2⟩ := ih (siftDown_func less hi d n hi first) (by rw [s1.1]; exact hlen) s2
    exact ⟨s1.trans r1, r2⟩

/-- In a heap no key is smaller than the key of the root. -/
theorem heap_root_min (d : List Game) (first hi : Nat) (h : ∀ r, HeapAt d first hi r) :
    ∀ r, r < hi → keyAt d (first + 0) ≤ keyAt d (first + r) := by
  intro r
  induction r using Nat.strong_induction_on with
  | _ r ih =>
    intro hr
    by_cases h0 : r = 0
    · rw [h0]
    · have hp := ih ((r - 1) / 2) (by omega) (by omega)
      exact le_trans hp (h ((r - 1) / 2) r (by omega) hr)

/-- The second loop of `heapSort_func`, from a heap of `n` elements in front of a range
that is in order and holds no larger key: the whole range ends in order. -/
theorem heapDrain_spec (first fuel E : Nat) (n : Nat) :
    ∀ (d : List Game), n ≤ fuel → first + n ≤ E → E ≤ d.length →
      (∀ r, HeapAt d first n r) →
      SortedOn d (first + n) E →
      (∀ x y, first ≤ x → x < first + n → first + n ≤ y → y < E → keyAt d y ≤ keyAt d x) →
      Frame d ((List.range n).reverse.foldl
        (fun d i => siftDown_func less fuel (swapAt d first (first + i)) 0 i first) d)
        first (first + n)
      ∧ SortedOn ((List.range n).reverse.foldl
        (fun d i => siftDown_func less fuel (swapAt d first (first + i)) 0 i first) d)
        first E := by
  induction n with
  | zero =>
    intro d _ _ _ _ hs _
    exact ⟨Frame.refl _ _ _, hs⟩
  | succ n ih =>
    intro d hf hE hlen hheap hs hcross
    rw [range_succ_reverse_foldl]
    have hmin := heap_root_min d first (n + 1) hheap
    have hfr1 : Frame d (swapAt d first (first + n)) first (first + (n + 1)) :=
      Frame.of_swapAt d _ _ _ _ (by omega) (by omega)
    have hl := keyAt_swapAt_left d first (first + n) (by omega) (by omega)
    have hr := keyAt_swapAt_right d first (first + n) (by omega) (by omega)
    have hn := keyAt_swapAt_ne d first (first + n)
    obtain ⟨s1, s2⟩ := siftDown_func_spec first n 0 fuel (swapAt d first (first + n)) 0
      (by omega) (le_refl _) (by rw [length_swapAt]; omega)
      (by
        intro r _ hr0 c hc hc'
        rw [hn (first + r) (by omega) (by omega), hn (first + c) (by omega) (by omega)]
        exact hheap r c hc (by omega))
      (fun p c hp hpc => by omega)
    have hkey1 : ∀ m, first ≤ m → m < first + n →
        ∃ m', first ≤ m' ∧ m' < first + (n + 1) ∧
          keyAt (swapAt d first (first + n)) m = keyAt d m' := by
      intro m hm hm'
      by_cases hmf : m = first
      · exact ⟨first + n, by omega, by omega, by rw [hmf, hl]⟩
      · exact ⟨m, hm, by omega, hn m hmf (by omega)⟩
    obtain ⟨r1, r2⟩ := ih (siftDown_func less fuel (swapAt d first (first + n)) 0 n first)
      (by omega) (by omega) (by rw [s1.1, length_swapAt]; exact hlen)
      (fun r => s2 r (Nat.zero_le _))
      (by
        intro i j hi hij hj
        rw [s1.2.1 i (by omega), s1.2.1 j (by omega),
          hn j (by omega) (by omega)]
        by_cases hin : i = first + n
        · rw [hin, hr]
          exact hcross first j (le_refl _) (by omega) (by omega) hj
        · rw [hn i (by omega) hin]
          exact hs i j (by omega) hij hj)
      (by
        intro x y hx hx' hy hy'
        rw [s1.2.1 y (by omega)]
        obtain ⟨m, hm, hm', e⟩ := s1.2.2 x hx hx'
        obtain ⟨m', hm1, hm2, e'⟩ := hkey1 m hm hm'
        rw [e, e']
        by_cases hyn : y = first + n
        · rw [hyn, hr]
          have := hmin (m' - first) (by omega)
          rw [Nat.add_zero] at this
          have e3 : first + (m' - first) = m' := by omega
          rw [e3] at this
          exact this
        · rw [hn y (by omega) hyn]
          exact hcross m' y hm1 hm2 (by omega) hy')
    exact ⟨hfr1.trans ((s1.mono (le_refl _) (by omega)).trans
      (r1.mono (le_refl _) (by omega))), r2⟩

/-- The library's `heapSort_func(data, a, b)` moves elements inside `[a, b)` only and leaves
`data[a:b]` in descending order of the keys. -/
theorem heapSort_func_sorts (d : List Game) (a b : Nat) (hab : a ≤ b) (hlen : b ≤ d.length) :
    Frame d (heapSort_func less d a b) a b ∧ SortedOn (heapSort_func less d a b) a b := by
  unfold heapSort_func
  simp only []
  obtain ⟨h1, h2⟩ := heapBuild_spec a (b - a) ((b - a - 1) / 2 + 1) d (by omega)
    (by
      intro r hr c hc hc'
      omega)
  generalize (List.range ((b - a - 1) / 2 + 1)).reverse.foldl
    (fun d i => siftDown_func less (b - a) d i (b - a) a) d = heap at h1 h2 ⊢
  obtain ⟨r1, r2⟩ := heapDrain_spec a (b - a) b (b - a) heap (le_refl _) (by omega)
    (by rw [h1.1]; exact hlen) h2 (fun i j hi hij hj => by omega)
    (fun x y hx hx' hy hy' => by omega)
  have e : a + (b - a) = b := by omega
  rw [e] at h1 r1
  exact ⟨h1.trans r1, r2⟩

/-! ## The sort sorts: `pdqsort_func` -/

/-- The part of a round of `pdqsort_func` that comes before the partition moves elements
inside `[a, b)` only, its pivot lies in `[a, b)`, and when it reports the range as sorted
the range is in order. -/
theorem pdqsortRound_spec (d : List Game) (a b limit : Nat) (wasBalanced wasPartitioned : Bool)
    (h : 8 ≤ b - a) (hlen : b ≤ d.length)
    (hC : 0 < a → ∀ k, a ≤ k → k < b → keyAt d k ≤ keyAt d (a - 1)) :
    Frame d (pdqsortRound less d a b limit wasBalanced wasPartitioned).1 a b
    ∧ (a ≤ (pdqsortRound less d a b limit wasBalanced wasPartitioned).2.2.1
      ∧ (pdqsortRound less d a b limit wasBalanced wasPartitioned).2.2.1 < b)
    ∧ ((pdqsortRound less d a b limit wasBalanced wasPartitioned).2.1 = true →
        SortedOn (pdqsortRound less d a b limit wasBalanced wasPartitioned).1 a b) := by
  unfold pdqsortRound
  simp only []
  have h1 : Frame d (if wasBalanced = false then breakPatterns_func d a b else d) a b := by
    split_ifs
    · exact breakPatterns_func_frame d a b
    · exact Frame.refl _ _ _
  generalize (if wasBalanced = false then breakPatterns_func d a b else d) = d1 at h1 ⊢
  have hp := choosePivot_func_range d1 a b h
  generalize choosePivot_func less d1 a b = ph at hp ⊢
  have h2 : Frame d1
      (if ph.2 = sortedHint.decreasingHint then reverseRange_func d1 a b else d1) a b := by
    split_ifs
    · exact reverseRange_func_frame d1 a b (by omega)
    · exact Frame.refl _ _ _
  generalize (if ph.2 = sortedHint.decreasingHint then reverseRange_func d1 a b else d1) = d2
    at h2 ⊢
  have h3 : a ≤ (if ph.2 = sortedHint.decreasingHint then b - 1 - (ph.1 - a) else ph.1)
      ∧ (if ph.2 = sortedHint.decreasingHint then b - 1 - (ph.1 - a) else ph.1) < b := by
    split_ifs
    · omega
    · exact hp
  have hf2 : Frame d d2 a b := h1.trans h2
  have ht : ∀ (c : Prop) [Decidable c],
      Frame d (if c then partialInsertionSort_func less d2 a b else (d2, false)).1 a b
      ∧ ((if c then partialInsertionSort_func less d2 a b else (d2, false)).2 = true →
        SortedOn (if c then partialInsertionSort_func less d2 a b else (d2, false)).1 a b) := by
    intro c _
    by_cases hc : c
    · rw [if_pos hc]
      have := partialInsertionSort_func_spec d2 a b (by omega)
        (by rw [hf2.1]; exact hlen) (hf2.bound_before hC)
      exact ⟨hf2.trans this.1, this.2⟩
    · rw [if_neg hc]
      exact ⟨hf2, fun h => by simp at h⟩
  exact ⟨(ht _).1, h3, (ht _).2⟩

theorem Partitioned.frame_left {d d2 : List Game} {a mid b : Nat} (h : Partitioned d a mid b)
    (hf : Frame d d2 a mid) : Partitioned d2 a mid b := by
  constructor
  · intro k hk hk'
    rw [hf.2.1 mid (by omega)]
    exact hf.bound (fun x => keyAt d mid < x) h.1 k hk hk'
  · intro k hk hk'
    rw [hf.2.1 mid (by omega), hf.2.1 k (by omega)]
    exact h.2 k hk hk'

theorem Partitioned.frame_right {d d2 : List Game} {a mid b : Nat} (h : Partitioned d a mid b)
    (hf : Frame d d2 (mid + 1) b) : Partitioned d2 a mid b := by
  constructor
  · intro k hk hk'
    rw [hf.2.1 mid (by omega), hf.2.1 k (by omega)]
    exact h.1 k hk hk'
  · intro k hk hk'
    rw [hf.2.1 mid (by omega)]
    exact hf.bound (fun x => x ≤ keyAt d mid) (fun k h1 h2 => h.2 k (by omega) h2) k
      (by omega) hk'

theorem SortedOn.frame_disjoint {d d2 : List Game} {p q p' q' : Nat} (h : SortedOn d p q)
    (hf : Frame d d2 p' q') (hd : q ≤ p' ∨ q' ≤ p) : SortedOn d2 p q := by
  intro i j hi hij hj
  rw [hf.2.1 i (by omega), hf.2.1 j (by omega)]
  exact h i j hi hij hj

theorem Partitioned.sorted_join {d : List Game} {a mid b : Nat} (h : Partitioned d a mid b)
    (hl : SortedOn d a mid) (hr : SortedOn d (mid + 1) b) : SortedOn d a b := by
  intro i j hi hij hj
  by_cases h1 : j < mid
  · exact hl i j hi hij h1
  · by_cases h2 : j = mid
    · rw [h2]
      exact le_of_lt (h.1 i hi (by omega))
    · have hjm := h.2 j (by omega) hj
      by_cases h3 : i < mid
      · exact le_trans hjm (le_of_lt (h.1 i hi h3))
      · by_cases h4 : i = mid
        · rw [h4]; exact hjm
        · exact hr i j (by omega) hij hj

/-- The library's `pdqsort_func(data, a, b, limit)`, called on a range in which no key is
larger than the key at `a - 1` (what its use of `partitionEqual_func` relies on), moves
elements inside `[a, b)` only and leaves `data[a:b]` in descending order of the keys, for
every `limit` and with fuel above `b - a`. -/
theorem pdqsort_func_sorts (fuel : Nat) :
    ∀ (d : List Game) (a b limit : Nat) (wasBalanced wasPartitioned : Bool),
      a ≤ b → b ≤ d.length → b - a < fuel →
      (0 < a → ∀ k, a ≤ k → k < b → keyAt d k ≤ keyAt d (a - 1)) →
      Frame d (pdqsort_func less fuel d a b limit wasBalanced wasPartitioned) a b
      ∧ SortedOn (pdqsort_func less fuel d a b limit wasBalanced wasPartitioned) a b := by
  induction fuel with
  | zero => intro d a b limit wb wp _ _ hf; omega
  | succ fuel ih =>
    intro d a b limit wb wp hab hlen hf hC
    rw [pdqsort_func]
    by_cases h12 : b - a ≤ 12
    · rw [if_pos h12]
      exact insertionSort_func_sorts d a b hab hlen
    rw [if_neg h12]
    by_cases hl0 : limit = 0
    · rw [if_pos hl0]
      exact heapSort_func_sorts d a b hab hlen
    rw [if_neg hl0]
    obtain ⟨hr1, hr2, hr3⟩ := pdqsortRound_spec d a b limit wb wp (by omega) hlen hC
    generalize pdqsortRound less d a b limit wb wp = r at hr1 hr2 hr3 ⊢
    obtain ⟨dr, flag, pivot, limit1⟩ := r
    dsimp only at hr1 hr2 hr3
    have hlenr : b ≤ dr.length := by rw [hr1.1]; exact hlen
    have hCr := hr1.bound_before hC
    cases flag with
    | true => exact ⟨hr1, hr3 rfl⟩
    | false =>
      dsimp only
      by_cases hpe : a > 0 ∧ lessAt less dr (a - 1) pivot = false
      · rw [if_pos hpe]
        have hle : keyAt dr (a - 1) ≤ keyAt dr pivot :=
          (lessAt_false_iff dr (a - 1) pivot (by omega) (by omega)).mp hpe.2
        obtain ⟨p1, p2, p3, p4, p5⟩ := partitionEqual_func_spec dr a b pivot (by omega) hlenr
          hr2.1 hr2.2
        generalize partitionEqual_func less dr a b pivot = pe at p1 p2 p3 p4 p5 ⊢
        obtain ⟨d', mid⟩ := pe
        dsimp only at p1 p2 p3 p4 p5 ⊢
        have hup : ∀ k, a ≤ k → k < b → keyAt d' k ≤ keyAt dr pivot := by
          intro k hk hk'
          exact p1.bound (fun x => x ≤ keyAt dr pivot)
            (fun k h1 h2 => le_trans (hCr hpe.1 k h1 h2) hle) k hk hk'
        obtain ⟨s1, s2⟩ := ih d' mid b limit1 wb wp p3 (by rw [p1.1]; exact hlenr) (by omega)
          (by
            intro _ k hk hk'
            exact le_trans (le_of_lt (p5 k hk hk')) (p4 (mid - 1) (by omega) (by omega)))
        refine ⟨hr1.trans (p1.trans (s1.mono (by omega) (le_refl _))), ?_⟩
        intro i j hi hij hj
        by_cases hjm : j < mid
        · rw [s1.2.1 i (by omega), s1.2.1 j (by omega)]
          exact le_trans (hup j (by omega) hj) (p4 i hi (by omega))
        · by_cases him : i < mid
          · rw [s1.2.1 i (by omega)]
            have := s1.bound (fun x => x < keyAt dr pivot) p5 j (by omega) hj
            exact le_trans (le_of_lt this) (p4 i hi him)
          · exact s2 i j (by omega) hij hj
      · rw [if_neg hpe]
        obtain ⟨p1, p2, p3, p4, p5⟩ := partition_func_spec dr a b pivot (by omega) hlenr
          hr2.1 hr2.2
        generalize partition_func less dr a b pivot = pe at p1 p2 p3 p4 p5 ⊢
        obtain ⟨d', mid, alreadyPartitioned⟩ := pe
        dsimp only at p1 p2 p3 p4 p5 ⊢
        have hpart : Partitioned d' a mid b := ⟨p4, p5⟩
        have hlen' : b ≤ d'.length := by rw [p1.1]; exact hlenr
        have hC' := p1.bound_before hCr
        by_cases hside : mid - a < b - mid
        · rw [if_pos hside]
          obtain ⟨s1, s2⟩ := ih d' a mid limit1 true true p2 (by omega) (by omega)
            (fun ha k hk hk' => hC' ha k hk (by omega))
          have hpart1 := hpart.frame_left s1
          obtain ⟨t1, t2⟩ := ih (pdqsort_func less fuel d' a mid limit1 true true) (mid + 1) b
            limit1 (decide (mid - a ≥ (b - a) / 8)) alreadyPartitioned (by omega)
            (by rw [s1.1]; exact hlen') (by omega)
            (fun _ k hk hk' => by
              rw [Nat.add_sub_cancel]
              exact hpart1.2 k (by omega) hk')
          exact ⟨hr1.trans (p1.trans ((s1.mono (le_refl _) (by omega)).trans
              (t1.mono (by omega) (le_refl _)))),
            (hpart1.frame_right t1).sorted_join (s2.frame_disjoint t1 (Or.inl (by omega))) t2⟩
        · rw [if_neg hside]
          obtain ⟨s1, s2⟩ := ih d' (mid + 1) b limit1 true true (by omega) hlen' (by omega)
            (fun _ k hk hk' => by
              rw [Nat.add_sub_cancel]
              exact hpart.2 k (by omega) hk')
          have hpart1 := hpart.frame_right s1
          obtain ⟨t1, t2⟩ := ih (pdqsort_func less fuel d' (mid + 1) b limit1 true true) a mid
            limit1 (decide (b - mid ≥ (b - a) / 8)) alreadyPartitioned p2
            (by rw [s1.1]; omega) (by omega)
            (fun ha k hk hk' => by
              rw [s1.2.1 k (by omega), s1.2.1 (a - 1) (by omega)]
              exact hC' ha k hk (by omega))
          exact ⟨hr1.trans (p1.trans ((s1.mono (by omega) (le_refl _)).trans
              (t1.mono (le_refl _) (by omega)))),
            (hpart1.frame_left t1).sorted_join t2 (s2.frame_disjoint t1 (Or.inr (by omega)))⟩

/-- The sort of `GetPlayTime` leaves the games in descending order of
`PlaytimeForever`. -/
theorem sortSlice_sorted (data : List Game) :
    (sortSlice data less).Pairwise (fun a b => a.PlaytimeForever ≥ b.PlaytimeForever) := by
  obtain ⟨h1, h2⟩ := pdqsort_func_sorts (data.length + 1) data 0 data.length
    (bitLen data.length data.length) true true (Nat.zero_le _) (le_refl _) (by omega)
    (fun h => by omega)
  unfold sortSlice
  generalize pdqsort_func less (data.length + 1) data 0 data.length
    (bitLen data.length data.length) true true = res at h1 h2
  rw [List.pairwise_iff_getElem]
  intro i j hi hj hij
  have := h2 i j (Nat.zero_le _) hij (by rw [← h1.1]; exact hj)
  rw [keyAt_of_some res i _ (List.getElem?_eq_getElem hi),
    keyAt_of_some res j _ (List.getElem?_eq_getElem hj)] at this
  exact this

/-- On a slice of at most 12 elements `pdqsort_func` is the insertion sort. -/
theorem pdqsort_func_of_short {α : Type} (lt : α → α → Bool) (data : List α)
    (h : data.length ≤ 12) (limit : Nat) :
    pdqsort_func lt (data.length + 1) data 0 data.length limit true true
      = insertionSort data lt := by
  rw [pdqsort_func, if_pos (by omega)]
  simp [insertionSort_func]

/-- On at most 12 games the sort of `GetPlayTime` is the insertion sort. -/
theorem sortSlice_of_short (data : List Game) (h : data.length ≤ 12) :
    sortSlice data less = insertionSort data less := by
  unfold sortSlice
  exact pdqsort_func_of_short less data h _

theorem insertionStep_filter (k : Int) (x : Game) (rev : List Game) :
    (insertionStep less x rev).filter (fun g => decide (g.PlaytimeForever = k))
      = (x :: rev).filter (fun g => decide (g.PlaytimeForever = k)) := by
  induction rev with
  | nil => rfl
  | cons y rev ih =>
    simp only [insertionStep]
    split
    · rename_i hlt
      have hxy : y.PlaytimeForever < x.PlaytimeForever := by
        simpa [less] using hlt
      rw [List.filter_cons, ih]
      by_cases hx : x.PlaytimeForever = k <;> by_cases hy : y.PlaytimeForever = k
      · omega
      · simp [List.filter_cons, hx, hy]
      · simp [List.filter_cons, hx, hy]
      · simp [List.filter_cons, hx, hy]
    · rfl

theorem foldl_insertionStep_filter (k : Int) (data rev : List Game) :
    (data.foldl (fun rev x => insertionStep less x rev) rev).filter
        (fun g => decide (g.PlaytimeForever = k))
      = (data.reverse ++ rev).filter (fun g => decide (g.PlaytimeForever = k)) := by
  induction data generalizing rev with
  | nil => rfl
  | cons x data ih =>
    rw [List.foldl_cons, ih, List.filter_append, insertionStep_filter, List.reverse_cons,
      List.append_assoc, List.filter_append]
    rfl

/-- The insertion sort keeps the games of equal `PlaytimeForever` in their order. -/
theorem insertionSort_filter (k : Int) (data : List Game) :
    (insertionSort data less).filter (fun g => decide (g.PlaytimeForever = k))
      = data.filter (fun g => decide (g.PlaytimeForever = k)) := by
  unfold insertionSort
  rw [List.filter_reverse, foldl_insertionStep_filter, List.append_nil, List.filter_reverse,
    List.reverse_reverse]

/-- The loop appends the lines of the games it reads until the counter reaches 3. -/
theorem rangeGames_eq (games : List Game) (max : Nat) (lines : List String) :
    rangeGames games max lines = lines ++ (games.take (3 - max)).map line := by
  induction games generalizing max lines with
  | nil => simp [rangeGames]
  | cons game rest ih =>
    simp only [rangeGames]
    split
    · rename_i h
      have : 3 - max = 0 := by omega
      simp [this]
    · rename_i h
      rw [ih]
      have : 3 - max = (3 - (max + 1)) + 1 := by omega
      rw [this, List.take_succ_cons]
      simp

/-- Past the test of `TotalCount`, `GetPlayTime` returns the lines of the first three
games of the sorted slice. -/
theorem GetPlayTime_eq (gameRet : RecentlyPlayedGames) (h : gameRet.TotalCount ≠ 0) :
    GetPlayTime gameRet = ((sortSlice gameRet.Games less).take 3).map line := by
  simp [GetPlayTime, h, rangeGames_eq]

/-! ## The lines of `GetPlayTime` -/

/-- C5, as amended. For every API response whose `TotalCount` is not 0, holding `n`
records, the lines returned by `GetPlayTime` are the renderings, in this order, of the
first `min(3, n)` records of the list sorted in descending order of `PlaytimeForever`;
the duration shown on a line is computed from `Playtime2Weeks`, and the line does not
change with the ranking key `PlaytimeForever`. -/
theorem GetPlayTime_ranked (gameRet : RecentlyPlayedGames) (h : gameRet.TotalCount ≠ 0) :
    ∃ sorted : List Game,
      sorted.Perm gameRet.Games ∧
      sorted.Pairwise (fun a b => a.PlaytimeForever ≥ b.PlaytimeForever) ∧
      GetPlayTime gameRet = (sorted.take (min 3 gameRet.Games.length)).map line ∧
      ∀ (g : Game) (p : Int),
        line g = pad (getNameEmoji g.Appid g.Name) " " 35 ++ " "
          ++ pad (duration g.Playtime2Weeks) "" 16 ∧
        line { g with PlaytimeForever := p } = line g := by
  refine ⟨sortSlice gameRet.Games less, sortSlice_perm _ _, sortSlice_sorted _, ?_,
    fun g p => ⟨rfl, rfl⟩⟩
  rw [GetPlayTime_eq gameRet h]
  have hlen : (sortSlice gameRet.Games less).length = gameRet.Games.length :=
    (sortSlice_perm _ _).length_eq
  rcases Nat.lt_or_ge gameRet.Games.length 3 with hn | hn
  · rw [Nat.min_eq_right (Nat.le_of_lt hn), List.take_of_length_le (by omega),
      List.take_of_length_le (by omega)]
  · rw [Nat.min_eq_left hn]

/-- C5 as amended, at a response of four games: the three most played overall are
listed, most played first, each with its two-week playtime. -/
theorem GetPlayTime_ranked_witness :
    (4 : Int) ≠ 0
    ∧ GetPlayTime ⟨4, [⟨730, "CS:GO", 125, 1000⟩, ⟨1, "Foo", 30, 5000⟩, ⟨2, "Bar", 0, 7⟩,
        ⟨3, "Baz", 61, 7000⟩]⟩
      = [line ⟨3, "Baz", 61, 7000⟩, line ⟨1, "Foo", 30, 5000⟩, line ⟨730, "CS:GO", 125, 1000⟩]
    ∧ ∃ sorted : List Game,
      sorted.Perm [⟨730, "CS:GO", 125, 1000⟩, ⟨1, "Foo", 30, 5000⟩, ⟨2, "Bar", 0, 7⟩,
        ⟨3, "Baz", 61, 7000⟩] ∧
      sorted.Pairwise (fun a b => a.PlaytimeForever ≥ b.PlaytimeForever) ∧
      GetPlayTime ⟨4, [⟨730, "CS:GO", 125, 1000⟩, ⟨1, "Foo", 30, 5000⟩, ⟨2, "Bar", 0, 7⟩,
        ⟨3, "Baz", 61, 7000⟩]⟩ = (sorted.take (min 3 4)).map line ∧
      ∀ (g : Game) (p : Int),
        line g = pad (getNameEmoji g.Appid g.Name) " " 35 ++ " "
          ++ pad (duration g.Playtime2Weeks) "" 16 ∧
        line { g with PlaytimeForever := p } = line g :=
  ⟨by decide, by decide,
    GetPlayTime_ranked ⟨4, [⟨730, "CS:GO", 125, 1000⟩, ⟨1, "Foo", 30, 5000⟩, ⟨2, "Bar", 0, 7⟩,
      ⟨3, "Baz", 61, 7000⟩]⟩ (by decide)⟩

/-- C5 fails as stated: the response with `TotalCount = 0` and the one record
`{730, "CS:GO", 125, 1000}` has a non-empty list, and `GetPlayTime` returns the
placeholder line, not the rendering of that record. -/
theorem GetPlayTime_ranked_counterexample :
    (RecentlyPlayedGames.mk 0 [⟨730, "CS:GO", 125, 1000⟩]).Games ≠ []
    ∧ GetPlayTime ⟨0, [⟨730, "CS:GO", 125, 1000⟩]⟩ = ["Haven't played games recently"]
    ∧ ¬ ∃ sorted : List Game, sorted.Perm [⟨730, "CS:GO", 125, 1000⟩] ∧
        GetPlayTime ⟨0, [⟨730, "CS:GO", 125, 1000⟩]⟩ = (sorted.take (min 3 1)).map line := by
  refine ⟨by decide, by decide, ?_⟩
  rintro ⟨sorted, hperm, heq⟩
  rw [List.perm_singleton.mp hperm] at heq
  revert heq
  decide

/-- C6, as amended. For every API response whose `TotalCount` is 0, `GetPlayTime`
returns exactly the one-element sequence `["Haven't played games recently"]`. -/
theorem GetPlayTime_placeholder (gameRet : RecentlyPlayedGames)
    (h : gameRet.TotalCount = 0) :
    GetPlayTime gameRet = ["Haven't played games recently"] := by
  simp [GetPlayTime, h]

/-- C6 as amended, at the response with `TotalCount = 0` and no record. -/
theorem GetPlayTime_placeholder_witness :
    (RecentlyPlayedGames.mk 0 []).TotalCount = 0
    ∧ GetPlayTime ⟨0, []⟩ = ["Haven't played games recently"] :=
  ⟨rfl, GetPlayTime_placeholder ⟨0, []⟩ rfl⟩

/-- C6 fails as stated: the response with `TotalCount = 5` and an empty list of records
gets no line at all, not the placeholder. -/
theorem GetPlayTime_placeholder_counterexample :
    (RecentlyPlayedGames.mk 5 []).Games.length = 0
    ∧ GetPlayTime ⟨5, []⟩ = []
    ∧ GetPlayTime ⟨5, []⟩ ≠ ["Haven't played games recently"] := by
  decide

/-- C7, as amended. `GetPlayTime` never returns more than 3 lines, and for every API
response whose `TotalCount` is not 0, holding `n` records, it returns exactly `min(3, n)`
lines. -/
theorem GetPlayTime_length (gameRet : RecentlyPlayedGames) :
    (GetPlayTime gameRet).length ≤ 3
    ∧ (gameRet.TotalCount ≠ 0 →
        (GetPlayTime gameRet).length = min 3 gameRet.Games.length) := by
  have hlen : (sortSlice gameRet.Games less).length = gameRet.Games.length :=
    (sortSlice_perm _ _).length_eq
  by_cases h : gameRet.TotalCount = 0
  · exact ⟨by simp [GetPlayTime, h], fun h' => absurd h h'⟩
  · rw [GetPlayTime_eq gameRet h, List.length_map, List.length_take, hlen]
    exact ⟨Nat.min_le_left _ _, fun _ => rfl⟩

/-- C7 as amended, at a response of five records. -/
theorem GetPlayTime_length_witness :
    (5 : Int) ≠ 0
    ∧ (GetPlayTime ⟨5, [⟨1, "a", 1, 1⟩, ⟨2, "b", 2, 2⟩, ⟨3, "c", 3, 3⟩, ⟨4, "d", 4, 4⟩,
        ⟨5, "e", 5, 5⟩]⟩).length = min 3 5 :=
  ⟨by decide,
    (GetPlayTime_length ⟨5, [⟨1, "a", 1, 1⟩, ⟨2, "b", 2, 2⟩, ⟨3, "c", 3, 3⟩, ⟨4, "d", 4, 4⟩,
      ⟨5, "e", 5, 5⟩]⟩).2 (by decide)⟩

/-- C7 fails as stated: the response with `TotalCount = 0` and two records gets one
line, the placeholder, not `min(3, 2) = 2` lines. -/
theorem GetPlayTime_length_counterexample :
    (RecentlyPlayedGames.mk 0 [⟨1, "a", 1, 1⟩, ⟨2, "b", 2, 2⟩]).Games.length = 2
    ∧ (GetPlayTime ⟨0, [⟨1, "a", 1, 1⟩, ⟨2, "b", 2, 2⟩]⟩).length = 1
    ∧ (GetPlayTime ⟨0, [⟨1, "a", 1, 1⟩, ⟨2, "b", 2, 2⟩]⟩).length ≠ min 3 2 := by
  decide

/-- The codepoints of a line: the name, its padding, the separating space, the
duration text. -/
theorem line_toList (g : Game) :
    (line g).toList = (getNameEmoji g.Appid g.Name).toList
      ++ List.replicate (35 - ((getNameEmoji g.Appid g.Name).length : Int)).toNat ' '
      ++ ' ' :: (duration g.Playtime2Weeks).toList := by
  have hsp : (" " : String) = String.singleton ' ' := rfl
  simp only [line, pad_empty_fill]
  rw [hsp]
  simp only [String.toList, String.data_append]
  have := pad_singleton_toList (getNameEmoji g.Appid g.Name) ' ' 35 (by decide)
    (Or.inl (by decide))
  simp only [String.toList] at this
  rw [this]
  simp [String.singleton]

/-- The three parts of a list whose first field has exactly 35 elements. -/
theorem field_split (field rest : List Char) (sep : Char) (h : field.length = 35) :
    (field ++ sep :: rest).take 35 = field
    ∧ (field ++ sep :: rest).get? 35 = some sep
    ∧ (field ++ sep :: rest).drop 36 = rest := by
  refine ⟨List.take_left' h, ?_, ?_⟩
  · rw [List.get?_eq_getElem?, List.getElem?_append_right (by omega), h]
    simp
  · have : field ++ sep :: rest = (field ++ [sep]) ++ rest := by simp
    rw [this]
    exact List.drop_left' (by simp [h])

/-- C8. For every record the rendered line is
`pad(getNameEmoji(appid, name), " ", 35) ++ " " ++ pad(duration text, "", 16)`.  When the
prefixed name has at most 35 codepoints, the first 35 codepoints of the line are the name
followed by spaces only, the 36th is the separating space and the duration text starts
at the 37th; when it has more than 35 codepoints the line starts with the name in full,
followed by the separating space and the duration text. -/
theorem line_layout (g : Game) :
    line g = pad (getNameEmoji g.Appid g.Name) " " 35 ++ " "
      ++ pad (duration g.Playtime2Weeks) "" 16
    ∧ ((getNameEmoji g.Appid g.Name).length ≤ 35 →
        (line g).toList.take 35 = (getNameEmoji g.Appid g.Name).toList
          ++ List.replicate (35 - (getNameEmoji g.Appid g.Name).length) ' '
        ∧ (line g).toList.get? 35 = some ' '
        ∧ (duration g.Playtime2Weeks).toList <+: (line g).toList.drop 36)
    ∧ (35 < (getNameEmoji g.Appid g.Name).length →
        (line g).toList = (getNameEmoji g.Appid g.Name).toList
          ++ ' ' :: (duration g.Playtime2Weeks).toList) := by
  refine ⟨rfl, ?_, ?_⟩
  · intro hle
    have hk : (35 - ((getNameEmoji g.Appid g.Name).length : Int)).toNat
        = 35 - (getNameEmoji g.Appid g.Name).length := by omega
    have hlen : ((getNameEmoji g.Appid g.Name).toList
        ++ List.replicate (35 - (getNameEmoji g.Appid g.Name).length) ' ').length = 35 := by
      have : (getNameEmoji g.Appid g.Name).toList.length
          = (getNameEmoji g.Appid g.Name).length := rfl
      simp only [List.length_append, List.length_replicate, this]
      omega
    obtain ⟨h1, h2, h3⟩ := field_split _ (duration g.Playtime2Weeks).toList ' ' hlen
    rw [line_toList, hk]
    exact ⟨h1, h2, by rw [h3]⟩
  · intro hlt
    have hk : (35 - ((getNameEmoji g.Appid g.Name).length : Int)).toNat = 0 := by omega
    rw [line_toList, hk]
    simp

/-- C8 at the record `{730, "CS:GO", 125, 1000}`: the prefixed name has 7 codepoints. -/
theorem line_layout_witness :
    (getNameEmoji 730 "CS:GO").length ≤ 35
    ∧ (line ⟨730, "CS:GO", 125, 1000⟩).toList.take 35
        = "🔫 CS:GO".toList ++ List.replicate 28 ' '
    ∧ (line ⟨730, "CS:GO", 125, 1000⟩).toList.get? 35 = some ' '
    ∧ "2 hrs 5 mins".toList <+: (line ⟨730, "CS:GO", 125, 1000⟩).toList.drop 36 :=
  ⟨by decide, (line_layout ⟨730, "CS:GO", 125, 1000⟩).2.1 (by decide)⟩

theorem float64_of_small (n : Int) (h : n.natAbs < 2 ^ 53) : float64 n = n := by
  unfold float64
  exact if_pos h

/-- C10, as amended. For every integer `m` of recent-window minutes with
`0 ≤ m < 60 * 2^53`, the duration text of `GetPlayTime` is
`decimal(h) ++ " hrs " ++ decimal(r) ++ " mins"` with `h = floor(m / 60)` and
`r = m mod 60`, so that `60 * h + r = m` and `0 ≤ r < 60`. -/
theorem duration_spec (m : Int) (h0 : 0 ≤ m) (hb : m < 60 * 2 ^ 53) :
    duration m = toString (m / 60) ++ " hrs " ++ toString (m % 60) ++ " mins"
    ∧ 60 * (m / 60) + m % 60 = m
    ∧ 0 ≤ m % 60 ∧ m % 60 < 60 := by
  have hd : Int.tdiv m 60 = m / 60 := Int.tdiv_eq_ediv h0 (by decide)
  have hm : Int.tmod m 60 = m % 60 := Int.tmod_eq_emod h0 (by decide)
  have h1 : float64 (m / 60) = m / 60 := float64_of_small _ (by omega)
  have h2 : float64 (m % 60) = m % 60 := float64_of_small _ (by omega)
  refine ⟨?_, by omega, by omega, by omega⟩
  simp only [duration, hd, hm, h1, h2]

/-- C10 as amended, at the spec's two examples: 125 minutes give `"2 hrs 5 mins"` and
0 minutes give `"0 hrs 0 mins"`. -/
theorem duration_spec_witness :
    duration 125 = "2 hrs 5 mins" ∧ duration 0 = "0 hrs 0 mins" :=
  ⟨(duration_spec 125 (by decide) (by decide)).1.trans (by decide),
    (duration_spec 0 (by decide) (by decide)).1.trans (by decide)⟩

/-- C10 fails as stated: for `m = 60 * (2^53 + 1)` minutes, a value of a 64-bit `int`,
`floor(m / 60)` is `9007199254740993` but the conversion `float64(m / 60)` rounds it to
`2^53`, and the text shows `9007199254740992` hours. -/
theorem duration_counterexample :
    (0 : Int) ≤ 540431955284459580
    ∧ (540431955284459580 : Int) < 2 ^ 63
    ∧ (540431955284459580 : Int) / 60 = 9007199254740993
    ∧ duration 540431955284459580 = "9007199254740992 hrs 0 mins"
    ∧ duration 540431955284459580
        ≠ toString ((540431955284459580 : Int) / 60) ++ " hrs "
          ++ toString ((540431955284459580 : Int) % 60) ++ " mins" :=
  ⟨by decide, by decide, by decide, by decide, by decide⟩

/-! ## getNameEmoji -/

theorem mem_of_lookup {α : Type} (k : Int) (v : α) (l : List (Int × α))
    (h : l.lookup k = some v) : (k, v) ∈ l := by
  induction l with
  | nil => simp [List.lookup] at h
  | cons p l ih =>
    obtain ⟨k', v'⟩ := p
    by_cases hk : k = k'
    · subst hk
      simp [List.lookup] at h
      simp [h]
    · have hb : (k == k') = false := by simpa using hk
      simp only [List.lookup, hb] at h
      exact List.mem_cons_of_mem _ (ih h)

/-- C11. For every game id and name, `getNameEmoji(id, name)` is the table's prefix for
`id` followed by `name` when `id` is in the table `nameEmojiMap` (for id 730 it is
`"🔫 " ++ name`), and is `name` unchanged when `id` is not in the table (id 1 is not);
`name` is always a suffix of the result. -/
theorem getNameEmoji_spec (id : Int) (name : String) :
    (∀ emoji : String, (id, emoji) ∈ nameEmojiMap → getNameEmoji id name = emoji ++ name)
    ∧ ((∀ emoji : String, (id, emoji) ∉ nameEmojiMap) → getNameEmoji id name = name)
    ∧ getNameEmoji 730 name = "🔫 " ++ name
    ∧ getNameEmoji 1 name = name
    ∧ name.toList <:+ (getNameEmoji id name).toList := by
  refine ⟨?_, ?_, rfl, rfl, ?_⟩
  · intro emoji h
    simp only [nameEmojiMap, List.mem_cons, Prod.mk.injEq, List.mem_singleton,
      List.not_mem_nil, or_false] at h
    rcases h with h | h | h | h | h | h | h | h | h <;>
      (obtain ⟨h1, h2⟩ := h; subst h1; subst h2; rfl)
  · intro h
    unfold getNameEmoji
    cases hl : nameEmojiMap.lookup id with
    | none => rfl
    | some emoji => exact absurd (mem_of_lookup id emoji _ hl) (h emoji)
  · unfold getNameEmoji
    cases nameEmojiMap.lookup id with
    | none => exact List.suffix_refl _
    | some emoji =>
      simp only [String.toList, String.data_append]
      exact List.suffix_append _ _

/-- C11 at the ids 271590 (in the table) and 42 (not in the table). -/
theorem getNameEmoji_spec_witness :
    ((271590 : Int), "🚓 ") ∈ nameEmojiMap
    ∧ getNameEmoji 271590 "GTA 5" = "🚓 GTA 5"
    ∧ (∀ emoji : String, ((42 : Int), emoji) ∉ nameEmojiMap)
    ∧ getNameEmoji 42 "Foo" = "Foo" :=
  ⟨by decide,
    ((getNameEmoji_spec 271590 "GTA 5").1 "🚓 " (by decide)).trans (by decide),
    fun emoji h => by simp [nameEmojiMap] at h,
    (getNameEmoji_spec 42 "Foo").2.1 (fun emoji h => by simp [nameEmojiMap] at h)⟩

/-! ## Splicing again, and the position of the end marker -/

/-- A document with an occurrence of a non-empty `sep` at position `a` is
`p ++ sep ++ v` with `p` of length `a`. -/
theorem split_at_occurrence (sep md : List UInt8) (a : Nat) (h : sep <+: md.drop a)
    (hpos : 0 < sep.length) : ∃ p v : List UInt8, md = p ++ sep ++ v ∧ p.length = a := by
  obtain ⟨v, hv⟩ := h
  have hlt : a < md.length := by
    by_contra hge
    rw [List.drop_eq_nil_of_le (by omega)] at hv
    have : sep = [] := (List.append_eq_nil.mp hv).1
    rw [this] at hpos
    exact absurd hpos (by decide)
  refine ⟨md.take a, v, ?_, ?_⟩
  · rw [List.append_assoc, hv, List.take_append_drop]
  · rw [List.length_take]; omega

/-- C12. Re-splicing replaces rather than appends: for every document
`D1 = pre ++ START ++ mid ++ END ++ post` holding each marker exactly once, and every
title `t1` and body `b1` such that `D2 = splice(D1, t1, b1)` again holds each marker
exactly once, the splice of any `(t2, b2)` into `D2` gives the same document as the splice
of `(t2, b2)` into `D1`; in particular the splice of `(t1, b1)` into `D2` gives `D2`. -/
theorem UpdateMarkdown_resplice (t1 b1 t2 b2 pre mid post spare1 spare2 spare3 D2 : List UInt8)
    (hstart : occurrences start (pre ++ start ++ mid ++ endMarker ++ post) = 1)
    (hend : occurrences endMarker (pre ++ start ++ mid ++ endMarker ++ post) = 1)
    (hD2 : UpdateMarkdown t1 (pre ++ start ++ mid ++ endMarker ++ post) spare1 b1 = some D2)
    (hstart2 : occurrences start D2 = 1) (hend2 : occurrences endMarker D2 = 1) :
    UpdateMarkdown t2 D2 spare2 b2
      = UpdateMarkdown t2 (pre ++ start ++ mid ++ endMarker ++ post) spare3 b2
    ∧ UpdateMarkdown t2 D2 spare2 b2
      = some (newMd (pre ++ start) t2 b2 (endMarker ++ post))
    ∧ UpdateMarkdown t1 D2 spare2 b1 = some D2 := by
  have index_start : ∀ m : List UInt8,
      occurrences start (pre ++ start ++ m ++ endMarker ++ post) = 1 →
      Index (pre ++ start ++ m ++ endMarker ++ post) start = pre.length := by
    intro m h
    rw [List.append_assoc (pre ++ start), List.append_assoc (pre ++ start)] at h ⊢
    exact Index_of_once pre start _ h
  have hs := index_start mid hstart
  have he : Index (pre ++ start ++ mid ++ endMarker ++ post) endMarker
      = (pre ++ start ++ mid).length := Index_of_once (pre ++ start ++ mid) endMarker post hend
  obtain ⟨X, hX⟩ : ∃ X, newMd (pre ++ start) t1 b1 (endMarker ++ post)
      = pre ++ start ++ X ++ endMarker ++ post :=
    ⟨bytes "\n" ++ t1 ++ bytes "\n" ++ bytes "```text\n" ++ b1 ++ bytes "\n" ++ bytes "```\n"
      ++ poweredBy, by simp only [newMd, List.append_assoc]⟩
  rw [UpdateMarkdown_of_Index t1 b1 pre mid post spare1 hs he, hX] at hD2
  have hD2' : D2 = pre ++ start ++ X ++ endMarker ++ post := (Option.some.inj hD2).symm
  subst hD2'
  have hs2 := index_start X hstart2
  have he2 : Index (pre ++ start ++ X ++ endMarker ++ post) endMarker
      = (pre ++ start ++ X).length := Index_of_once (pre ++ start ++ X) endMarker post hend2
  refine ⟨?_, ?_, ?_⟩
  · rw [UpdateMarkdown_of_Index t2 b2 pre X post spare2 hs2 he2,
      UpdateMarkdown_of_Index t2 b2 pre mid post spare3 hs he]
  · exact UpdateMarkdown_of_Index t2 b2 pre X post spare2 hs2 he2
  · rw [UpdateMarkdown_of_Index t1 b1 pre X post spare2 hs2 he2, hX]

set_option maxRecDepth 100000 in
/-- C12 at the document `"A" ++ START ++ "old" ++ END ++ "B"`, first spliced with title
`"t1"` and body `"b1"`, then with `"t2"` and `"b2"`. -/
theorem UpdateMarkdown_resplice_witness :
    occurrences start (bytes "A" ++ start ++ bytes "old" ++ endMarker ++ bytes "B") = 1
    ∧ occurrences endMarker (bytes "A" ++ start ++ bytes "old" ++ endMarker ++ bytes "B") = 1
    ∧ UpdateMarkdown (bytes "t1") (bytes "A" ++ start ++ bytes "old" ++ endMarker ++ bytes "B")
        [] (bytes "b1")
      = some (newMd (bytes "A" ++ start) (bytes "t1") (bytes "b1") (endMarker ++ bytes "B"))
    ∧ UpdateMarkdown (bytes "t2")
        (newMd (bytes "A" ++ start) (bytes "t1") (bytes "b1") (endMarker ++ bytes "B")) []
        (bytes "b2")
      = UpdateMarkdown (bytes "t2")
        (bytes "A" ++ start ++ bytes "old" ++ endMarker ++ bytes "B") [] (bytes "b2")
    ∧ UpdateMarkdown (bytes "t1")
        (newMd (bytes "A" ++ start) (bytes "t1") (bytes "b1") (endMarker ++ bytes "B")) []
        (bytes "b1")
      = some (newMd (bytes "A" ++ start) (bytes "t1") (bytes "b1") (endMarker ++ bytes "B")) :=
  ⟨by decide, by decide, by decide,
    (UpdateMarkdown_resplice (bytes "t1") (bytes "b1") (bytes "t2") (bytes "b2") (bytes "A")
      (bytes "old") (bytes "B") [] [] []
      (newMd (bytes "A" ++ start) (bytes "t1") (bytes "b1") (endMarker ++ bytes "B"))
      (by decide) (by decide) (by decide) (by decide) (by decide)).1,
    (UpdateMarkdown_resplice (bytes "t1") (bytes "b1") (bytes "t2") (bytes "b2") (bytes "A")
      (bytes "old") (bytes "B") [] [] []
      (newMd (bytes "A" ++ start) (bytes "t1") (bytes "b1") (endMarker ++ bytes "B"))
      (by decide) (by decide) (by decide) (by decide) (by decide)).2.2⟩

theorem start_length : start.length = 24 := by decide

theorem endMarker_length : endMarker.length = 22 := by decide

/-- An occurrence of a non-empty `sep` at position `k` ends inside the document. -/
theorem occurrence_le_length (sep md : List UInt8) (k : Nat) (h : sep <+: md.drop k) :
    sep.length ≤ md.length - k := by
  have := h.length_le
  rwa [List.length_drop] at this

/-- C13, as amended. For every document that contains the start marker, and in which no
occurrence of the end marker begins before the end of the start marker's first
occurrence, the splice of `UpdateMarkdown` takes as the end position the first occurrence
of the end marker at or after the end of the start marker's first occurrence. -/
theorem UpdateMarkdown_end_position (title content md spare : List UInt8) (a e : Nat)
    (hs : start <+: md.drop a) (hsmin : ∀ j, j < a → ¬ start <+: md.drop j)
    (he : endMarker <+: md.drop e) (hord : a + start.length ≤ e)
    (hemin : ∀ j, a + start.length ≤ j → j < e → ¬ endMarker <+: md.drop j)
    (hnone : ∀ j, j < a + start.length → ¬ endMarker <+: md.drop j) :
    Index md endMarker = e
    ∧ UpdateMarkdown title md spare content
      = some (newMd (md.take (a + start.length)) title content (md.drop e)) := by
  have hla := occurrence_le_length start md a hs
  have hle := occurrence_le_length endMarker md e he
  rw [start_length] at hla hord
  rw [endMarker_length] at hle
  have hia : Index md start = a := Index_eq_of_first md start a (by omega) hs hsmin
  have hie : Index md endMarker = e := by
    apply Index_eq_of_first md endMarker e (by omega) he
    intro j hj
    rcases Nat.lt_or_ge j (a + start.length) with h | h
    · exact hnone j h
    · exact hemin j h hj
  exact ⟨hie, UpdateMarkdown_of_found title content md spare a e hia
    (by rw [start_length]; omega) hie (by omega)⟩

set_option maxRecDepth 100000 in
/-- C13 as amended, at the document `"A" ++ START ++ "Y" ++ END ++ "Z" ++ END`: the first
of the two end markers is taken. -/
theorem UpdateMarkdown_end_position_witness :
    Index (bytes "A" ++ start ++ bytes "Y" ++ endMarker ++ bytes "Z" ++ endMarker) endMarker
      = (26 : Nat)
    ∧ UpdateMarkdown (bytes "T")
        (bytes "A" ++ start ++ bytes "Y" ++ endMarker ++ bytes "Z" ++ endMarker) [] (bytes "B")
      = some (newMd (bytes "A" ++ start) (bytes "T") (bytes "B")
          (endMarker ++ bytes "Z" ++ endMarker)) :=
  (UpdateMarkdown_end_position (bytes "T") (bytes "B")
    (bytes "A" ++ start ++ bytes "Y" ++ endMarker ++ bytes "Z" ++ endMarker) [] 1 26
    (by decide) (by decide) (by decide) (by decide) (by decide) (by decide)).imp id
    (fun h => h.trans (by decide))

set_option maxRecDepth 100000 in
/-- C13 fails as stated, at its own witness
`"<!-- steam-box end -->X<!-- steam-box start -->Y<!-- steam-box end -->Z"`: the start
marker is first found at offset 23 and an end marker stands at offset 48, after it, but
`bytes.Index(md, end)` is 0, so `after` is the whole document: the output is not the
document with only `Y` replaced, it holds the whole input behind the new block. -/
theorem UpdateMarkdown_end_position_counterexample :
    Index (bytes "<!-- steam-box end -->X<!-- steam-box start -->Y<!-- steam-box end -->Z")
      start = 23
    ∧ endMarker <+:
      (bytes "<!-- steam-box end -->X<!-- steam-box start -->Y<!-- steam-box end -->Z").drop 48
    ∧ Index (bytes "<!-- steam-box end -->X<!-- steam-box start -->Y<!-- steam-box end -->Z")
      endMarker = 0
    ∧ UpdateMarkdown (bytes "T")
        (bytes "<!-- steam-box end -->X<!-- steam-box start -->Y<!-- steam-box end -->Z") []
        (bytes "B")
      = some (bytes ("<!-- steam-box end -->X<!-- steam-box start -->\nT\n```text\nB\n```\n"
          ++ "<!-- Powered by https://github.com/YouEclipse/steam-box . -->\n"
          ++ "<!-- steam-box end -->X<!-- steam-box start -->Y<!-- steam-box end -->Z"))
    ∧ UpdateMarkdown (bytes "T")
        (bytes "<!-- steam-box end -->X<!-- steam-box start -->Y<!-- steam-box end -->Z") []
        (bytes "B")
      ≠ some (bytes ("<!-- steam-box end -->X<!-- steam-box start -->\nT\n```text\nB\n```\n"
          ++ "<!-- Powered by https://github.com/YouEclipse/steam-box . -->\n"
          ++ "<!-- steam-box end -->Z")) :=
  ⟨by decide, ⟨bytes "Z", by decide⟩, by decide, by decide, by decide⟩

/-- C15. The document invariant is preserved by the splice: for every document in which
the start marker occurs, first at offset `a`, and the end marker occurs at or after the end
of that occurrence, and for every title and body, the splice gives a document that again
contains the start marker, first at offset `a`, and again contains the end marker at or
after the end of that occurrence; a further splice of that document does not fail. -/
theorem UpdateMarkdown_invariant (title content md spare : List UInt8) (a e : Nat)
    (hs : start <+: md.drop a) (hsmin : ∀ j, j < a → ¬ start <+: md.drop j)
    (he : endMarker <+: md.drop e) (hord : a + start.length ≤ e) :
    ∃ out : List UInt8,
      UpdateMarkdown title md spare content = some out
      ∧ start <+: out.drop a ∧ (∀ j, j < a → ¬ start <+: out.drop j)
      ∧ (∃ e' : Nat, endMarker <+: out.drop e' ∧ a + start.length ≤ e')
      ∧ ∀ title' content' spare' : List UInt8,
          UpdateMarkdown title' out spare' content' ≠ none := by
  have hla := occurrence_le_length start md a hs
  have hle := occurrence_le_length endMarker md e he
  rw [start_length] at hla hord
  rw [endMarker_length] at hle
  have hia : Index md start = a := Index_eq_of_first md start a (by omega) hs hsmin
  obtain ⟨e0, hie, _⟩ := Index_le_of_occurrence md endMarker e (by omega) he
  have he0 : endMarker <+: md.drop e0 ∧ e0 ≤ md.length := by
    rcases Index_spec md endMarker with ⟨hi, _⟩ | ⟨i, hi, hile, hocc, _⟩
    · rw [hie] at hi; omega
    · rw [hie] at hi
      have : i = e0 := by omega
      subst this
      exact ⟨hocc, hile⟩
  obtain ⟨p, v, hmd, hp⟩ := split_at_occurrence start md a hs (by rw [start_length]; omega)
  have htake : md.take (a + start.length) = p ++ start := by
    rw [hmd, ← hp, ← List.length_append]
    exact List.take_left _ _
  -- the output document, cut behind the start marker and in front of the kept end marker
  obtain ⟨r, hout, hr⟩ : ∃ r, newMd (md.take (a + start.length)) title content (md.drop e0)
      = p ++ start ++ r ∧ ∃ f, p ++ start ++ r = (p ++ start ++ f) ++ md.drop e0 := by
    refine ⟨bytes "\n" ++ title ++ bytes "\n" ++ bytes "```text\n" ++ content ++ bytes "\n"
      ++ bytes "```\n" ++ poweredBy ++ md.drop e0, ?_,
      bytes "\n" ++ title ++ bytes "\n" ++ bytes "```text\n" ++ content ++ bytes "\n"
      ++ bytes "```\n" ++ poweredBy, ?_⟩
    · rw [htake]; simp only [newMd, List.append_assoc]
    · simp only [List.append_assoc]
  obtain ⟨f, hf⟩ := hr
  have hia' : Index (p ++ start ++ r) start = a := by
    have h := hia
    rw [hmd, ← hp] at h
    rw [← hp]
    exact Index_stable p start v r h
  have hocc_out : endMarker <+: (p ++ start ++ r).drop (p ++ start ++ f).length := by
    rw [hf, List.drop_left]
    exact he0.1
  have hlen_f : a + start.length ≤ (p ++ start ++ f).length := by
    simp only [List.length_append]; omega
  have hlen_out : (p ++ start ++ f).length + 22 ≤ (p ++ start ++ r).length := by
    have := occurrence_le_length endMarker _ _ hocc_out
    rw [endMarker_length] at this
    have h2 : (p ++ start ++ f).length ≤ (p ++ start ++ r).length := by
      rw [hf]; simp only [List.length_append]; omega
    omega
  have hspec_start : start <+: (p ++ start ++ r).drop a ∧
      ∀ j, j < a → ¬ start <+: (p ++ start ++ r).drop j := by
    rcases Index_spec (p ++ start ++ r) start with ⟨hi, _⟩ | ⟨i, hi, _, hocc, hmin⟩
    · rw [hia'] at hi; omega
    · rw [hia'] at hi
      have : i = a := by omega
      subst this
      exact ⟨hocc, hmin⟩
  refine ⟨p ++ start ++ r, ?_, hspec_start.1, hspec_start.2,
    ⟨(p ++ start ++ f).length, hocc_out, hlen_f⟩, ?_⟩
  · rw [UpdateMarkdown_of_found title content md spare a e0 hia (by rw [start_length]; omega)
      hie he0.2, hout]
  · intro title' content' spare'
    obtain ⟨e1, hie1, hle1⟩ := Index_le_of_occurrence (p ++ start ++ r) endMarker
      (p ++ start ++ f).length (by omega) hocc_out
    have hin : a + start.length ≤ (p ++ start ++ r).length := by omega
    rw [UpdateMarkdown_of_found title' content' _ spare' a e1 hia' hin hie1 (by omega)]
    exact Option.some_ne_none _

set_option maxRecDepth 100000 in
/-- C15 at the document `END ++ "X" ++ START ++ "Y" ++ END ++ "Z"`, in which an end
marker also stands in front of the start marker. -/
theorem UpdateMarkdown_invariant_witness :
    ∃ out : List UInt8,
      UpdateMarkdown (bytes "T")
        (bytes "<!-- steam-box end -->X<!-- steam-box start -->Y<!-- steam-box end -->Z") []
        (bytes "B") = some out
      ∧ start <+: out.drop 23 ∧ (∀ j, j < 23 → ¬ start <+: out.drop j)
      ∧ (∃ e' : Nat, endMarker <+: out.drop e' ∧ 23 + start.length ≤ e')
      ∧ ∀ title' content' spare' : List UInt8,
          UpdateMarkdown title' out spare' content' ≠ none :=
  UpdateMarkdown_invariant (bytes "T") (bytes "B")
    (bytes "<!-- steam-box end -->X<!-- steam-box start -->Y<!-- steam-box end -->Z") [] 23 48
    ⟨bytes "Y<!-- steam-box end -->Z", by decide⟩ (by decide) ⟨bytes "Z", by decide⟩
    (by decide)

/-! ## The duration field -/

theorem duration_suffix (m : Int) : " mins".toList <:+ (duration m).toList := by
  simp only [duration, String.toList, String.data_append]
  exact List.suffix_append _ _

/-- C16. For every string `s` and every integer `width`, `pad(s, "", width) = s`.
Consequently every line that `GetPlayTime` renders for a record (every line it returns,
the placeholder of the `TotalCount == 0` branch apart, which has no duration field) is the
padded name, a space and the bare duration text of that record: its duration field is not
widened to 16 codepoints, and the line ends with `" mins"`. -/
theorem pad_empty_spec (s : String) (width : Int) (gameRet : RecentlyPlayedGames) :
    pad s "" width = s
    ∧ ∀ l ∈ GetPlayTime gameRet, l = "Haven't played games recently" ∨
        ∃ g ∈ gameRet.Games,
          l = pad (getNameEmoji g.Appid g.Name) " " 35 ++ " " ++ duration g.Playtime2Weeks
          ∧ pad (duration g.Playtime2Weeks) "" 16 = duration g.Playtime2Weeks
          ∧ " mins".toList <:+ l.toList := by
  refine ⟨pad_empty_fill s width, ?_⟩
  intro l hl
  by_cases h : gameRet.TotalCount = 0
  · left
    simpa [GetPlayTime, h] using hl
  · right
    rw [GetPlayTime_eq gameRet h, List.mem_map] at hl
    obtain ⟨g, hg, rfl⟩ := hl
    refine ⟨g, (sortSlice_perm _ _).mem_iff.mp (List.mem_of_mem_take hg), ?_,
      pad_empty_fill _ _, ?_⟩
    · simp only [line, pad_empty_fill]
    · simp only [line, pad_empty_fill, String.toList, String.data_append]
      exact (duration_suffix g.Playtime2Weeks).trans (List.suffix_append _ _)

/-- C16 at the response holding the one record `{730, "CS:GO", 125, 1000}`: the line ends
with the 12 codepoints of `"2 hrs 5 mins"`, not with a field of 16. -/
theorem pad_empty_spec_witness :
    pad "2 hrs 5 mins" "" 16 = "2 hrs 5 mins"
    ∧ "2 hrs 5 mins".length = 12
    ∧ GetPlayTime ⟨1, [⟨730, "CS:GO", 125, 1000⟩]⟩
      = ["🔫 CS:GO                             2 hrs 5 mins"]
    ∧ ("🔫 CS:GO                             2 hrs 5 mins" = "Haven't played games recently" ∨
        ∃ g ∈ [Game.mk 730 "CS:GO" 125 1000],
          "🔫 CS:GO                             2 hrs 5 mins"
            = pad (getNameEmoji g.Appid g.Name) " " 35 ++ " " ++ duration g.Playtime2Weeks
          ∧ pad (duration g.Playtime2Weeks) "" 16 = duration g.Playtime2Weeks
          ∧ " mins".toList <:+ "🔫 CS:GO                             2 hrs 5 mins".toList) :=
  ⟨(pad_empty_spec "2 hrs 5 mins" 16 ⟨1, [⟨730, "CS:GO", 125, 1000⟩]⟩).1, by decide, by decide,
    (pad_empty_spec "2 hrs 5 mins" 16 ⟨1, [⟨730, "CS:GO", 125, 1000⟩]⟩).2
      "🔫 CS:GO                             2 hrs 5 mins" (by decide)⟩

/-! ## Ties in the ranking -/

/-- C14, as amended. For every API response with at most 5 play records, the number that
`GetPlayTime` asks for (`Count: 5`), the records with equal `PlaytimeForever` stand in the
ranking, and so in the output of `GetPlayTime`, in the same relative order as in the input
list: on a slice that short `sort.Slice` runs an insertion sort. -/
theorem GetPlayTime_stable (gameRet : RecentlyPlayedGames)
    (hlen : gameRet.Games.length ≤ Count) :
    ∃ sorted : List Game,
      sorted.Perm gameRet.Games
      ∧ (gameRet.TotalCount ≠ 0 → GetPlayTime gameRet = (sorted.take 3).map line)
      ∧ ∀ k : Int,
          sorted.filter (fun g => decide (g.PlaytimeForever = k))
            = gameRet.Games.filter (fun g => decide (g.PlaytimeForever = k))
          ∧ (sorted.take 3).filter (fun g => decide (g.PlaytimeForever = k))
            <+: gameRet.Games.filter (fun g => decide (g.PlaytimeForever = k)) := by
  refine ⟨sortSlice gameRet.Games less, sortSlice_perm _ _, GetPlayTime_eq gameRet, ?_⟩
  intro k
  have hst : (sortSlice gameRet.Games less).filter (fun g => decide (g.PlaytimeForever = k))
      = gameRet.Games.filter (fun g => decide (g.PlaytimeForever = k)) := by
    rw [sortSlice_of_short _ (le_trans hlen (by decide)), insertionSort_filter]
  refine ⟨hst, ?_⟩
  rw [← hst]
  exact (List.take_prefix 3 _).filter _

/-- C14 as amended, at a response of four records, two with 5 and two with 7 minutes of
`PlaytimeForever`: `b` stays in front of `d`, and `a` in front of `c`. -/
theorem GetPlayTime_stable_witness :
    GetPlayTime ⟨4, [⟨1, "a", 1, 5⟩, ⟨2, "b", 2, 7⟩, ⟨3, "c", 3, 5⟩, ⟨4, "d", 4, 7⟩]⟩
      = [line ⟨2, "b", 2, 7⟩, line ⟨4, "d", 4, 7⟩, line ⟨1, "a", 1, 5⟩]
    ∧ ∃ sorted : List Game,
      sorted.Perm [⟨1, "a", 1, 5⟩, ⟨2, "b", 2, 7⟩, ⟨3, "c", 3, 5⟩, ⟨4, "d", 4, 7⟩]
      ∧ ((4 : Int) ≠ 0 →
          GetPlayTime ⟨4, [⟨1, "a", 1, 5⟩, ⟨2, "b", 2, 7⟩, ⟨3, "c", 3, 5⟩, ⟨4, "d", 4, 7⟩]⟩
            = (sorted.take 3).map line)
      ∧ ∀ k : Int,
          sorted.filter (fun g => decide (g.PlaytimeForever = k))
            = [Game.mk 1 "a" 1 5, ⟨2, "b", 2, 7⟩, ⟨3, "c", 3, 5⟩, ⟨4, "d", 4, 7⟩].filter
                (fun g => decide (g.PlaytimeForever = k))
          ∧ (sorted.take 3).filter (fun g => decide (g.PlaytimeForever = k))
            <+: [Game.mk 1 "a" 1 5, ⟨2, "b", 2, 7⟩, ⟨3, "c", 3, 5⟩, ⟨4, "d", 4, 7⟩].filter
                (fun g => decide (g.PlaytimeForever = k)) :=
  ⟨by decide,
    GetPlayTime_stable ⟨4, [⟨1, "a", 1, 5⟩, ⟨2, "b", 2, 7⟩, ⟨3, "c", 3, 5⟩, ⟨4, "d", 4, 7⟩]⟩
      (by decide)⟩

set_option maxRecDepth 100000 in
/-- C14 fails as stated: for the thirteen records `thirteenGames` (`g0` to `g11` with
`PlaytimeForever = 0`, then `g12` with 1) the library's pdqsort takes `g6` as the pivot and
swaps it to the front, and the ranking is `g12, g6, g2, g3, g4, g5, g0, g7, ..., g11, g1`:
the output shows `g6` and `g2` behind `g12`, although `g0` and `g1` stand in front of both
in the input and have the same `PlaytimeForever`. -/
theorem GetPlayTime_stable_counterexample :
    thirteenGames.length = 13
    ∧ thirteenGames.filter (fun g => decide (g.PlaytimeForever = 0))
      = thirteenGames.take 12
    ∧ (sortSlice thirteenGames less).map (fun g => g.Name)
      = ["g12", "g6", "g2", "g3", "g4", "g5", "g0", "g7", "g8", "g9", "g10", "g11", "g1"]
    ∧ (sortSlice thirteenGames less).filter (fun g => decide (g.PlaytimeForever = 0))
      ≠ thirteenGames.filter (fun g => decide (g.PlaytimeForever = 0))
    ∧ GetPlayTime ⟨13, thirteenGames⟩
      = [line ⟨12, "g12", 0, 1⟩, line ⟨6, "g6", 0, 0⟩, line ⟨2, "g2", 0, 0⟩]
    ∧ GetPlayTime ⟨13, thirteenGames⟩
      ≠ [line ⟨12, "g12", 0, 1⟩, line ⟨0, "g0", 0, 0⟩, line ⟨1, "g1", 0, 0⟩] := by
  decide

end steambox
